import Mathlib

/-!
The program `tools/http_client.go`: a verification development.

The program issues one HTTP request described by its command-line arguments and
prints a JSON envelope.  Its `main` is embedded as a pure function of the
argument vector and of an environment that answers the three calls which leave
the process (`http.NewRequest`, `client.Do`, `io.ReadAll`) and fixes the order
in which `range` visits the header map.

The command-line arguments and the error messages are Lean strings; what comes
from the server (the body and the header map of the response) is kept as
bytes, since `string(respBody)` need not be valid UTF-8.  The Go
standard-library functions the program calls (`strings.ToUpper`,
`json.Unmarshal`, `json.Marshal`, `Header.Set`, `fmt.Printf`) are modelled
after their documented behaviour; each model says so in its doc comment.  The
case table of `unicode.ToUpper` is a parameter of the environment.
-/

namespace HttpClient

/-! ## JSON values and a one-pass reader for JSON text (RFC 8259) -/

/-- A JSON value.  A number keeps its lexeme; an object keeps its members in
the order of the text. -/
inductive JSON where
  | null
  | bool (b : Bool)
  | num (lexeme : String)
  | str (s : String)
  | arr (elems : List JSON)
  | obj (members : List (String × JSON))

/-- An open container of the reader: an array with the elements read so far,
an object waiting for a key (or for a separator), or an object whose key has
been read and whose value is awaited. -/
inductive Frame where
  | arr (elems : List JSON)
  | obj (members : List (String × JSON))
  | objV (members : List (String × JSON)) (key : String)

/-- Position inside a number lexeme,
`-? (0 | [1-9][0-9]*) (. [0-9]+)? ([eE] [+-]? [0-9]+)?`. -/
inductive NumSt where
  | minus | zero | int | dot | frac | e | esign | exp

/-- What the reader is in the middle of.  In the string modes `hi` remembers a
high surrogate that the previous `\u` escape produced (a replacement character
stands for it at the end of `acc` until a low surrogate completes the pair). -/
inductive Mode where
  | value
  | arrFirst
  | objFirst
  | objKey
  | colon
  | after
  | finished (v : JSON)
  | str (isKey : Bool) (acc : List Char) (hi : Option Nat)
  | esc (isKey : Bool) (acc : List Char) (hi : Option Nat)
  | uni (isKey : Bool) (acc : List Char) (hi : Option Nat) (n : Nat) (v : Nat)
  | lit (rest : List Char) (v : JSON)
  | number (st : NumSt) (acc : List Char)

/-- State of the reader: the open containers, innermost first, and the mode. -/
structure Reader where
  stack : List Frame
  mode : Mode

/-- JSON whitespace. -/
def isWs (c : Char) : Bool :=
  c = ' ' || c = '\t' || c = '\n' || c = '\r'

/-- Value of a hexadecimal digit. -/
def hexVal (c : Char) : Option Nat :=
  if '0' ≤ c ∧ c ≤ '9' then some (c.toNat - '0'.toNat)
  else if 'a' ≤ c ∧ c ≤ 'f' then some (c.toNat - 'a'.toNat + 10)
  else if 'A' ≤ c ∧ c ≤ 'F' then some (c.toNat - 'A'.toNat + 10)
  else none

/-- Decimal digit test. -/
def isDigit (c : Char) : Bool :=
  decide ('0' ≤ c ∧ c ≤ '9')

/-- One character inside a number lexeme; `none` when the character cannot
continue the lexeme. -/
def numStep (st : NumSt) (c : Char) : Option NumSt :=
  match st with
  | .minus => if c = '0' then some .zero else if isDigit c then some .int else none
  | .zero => if c = '.' then some .dot else if c = 'e' ∨ c = 'E' then some .e else none
  | .int =>
    if isDigit c then some .int else if c = '.' then some .dot
    else if c = 'e' ∨ c = 'E' then some .e else none
  | .dot => if isDigit c then some .frac else none
  | .frac => if isDigit c then some .frac else if c = 'e' ∨ c = 'E' then some .e else none
  | .e => if c = '+' ∨ c = '-' then some .esign else if isDigit c then some .exp else none
  | .esign => if isDigit c then some .exp else none
  | .exp => if isDigit c then some .exp else none

/-- The positions at which a number lexeme may end. -/
def numAccept : NumSt → Bool
  | .zero | .int | .frac | .exp => true
  | _ => false

/-- A value has been read: hand it to the innermost open container, or finish
when there is none. -/
def complete (k : List Frame) (v : JSON) : Option Reader :=
  match k with
  | [] => some ⟨[], .finished v⟩
  | .arr es :: k' => some ⟨.arr (es ++ [v]) :: k', .after⟩
  | .objV ms key :: k' => some ⟨.obj (ms ++ [(key, v)]) :: k', .after⟩
  | .obj _ :: _ => none

/-- First character of a value. -/
def startValue (k : List Frame) (c : Char) : Option Reader :=
  if c = '"' then some ⟨k, .str false [] none⟩
  else if c = '[' then some ⟨.arr [] :: k, .arrFirst⟩
  else if c = '{' then some ⟨.obj [] :: k, .objFirst⟩
  else if c = 't' then some ⟨k, .lit ['r', 'u', 'e'] (.bool true)⟩
  else if c = 'f' then some ⟨k, .lit ['a', 'l', 's', 'e'] (.bool false)⟩
  else if c = 'n' then some ⟨k, .lit ['u', 'l', 'l'] .null⟩
  else if c = '-' then some ⟨k, .number .minus [c]⟩
  else if c = '0' then some ⟨k, .number .zero [c]⟩
  else if isDigit c then some ⟨k, .number .int [c]⟩
  else none

/-- A character after a complete value: whitespace, a separator or a closing
bracket inside a container; only whitespace after the top-level value. -/
def stepDelim (r : Reader) (c : Char) : Option Reader :=
  match r.mode with
  | .after =>
    if isWs c then some r
    else match r.stack with
      | .arr es :: k =>
        if c = ',' then some ⟨.arr es :: k, .value⟩
        else if c = ']' then complete k (.arr es) else none
      | .obj ms :: k =>
        if c = ',' then some ⟨.obj ms :: k, .objKey⟩
        else if c = '}' then complete k (.obj ms) else none
      | _ => none
  | .finished _ => if isWs c then some r else none
  | _ => none

/-- The closing quote of a string: a key opens the wait for its value, any
other string is a value. -/
def endString (k : List Frame) (isKey : Bool) (acc : List Char) : Option Reader :=
  if isKey then
    match k with
    | .obj ms :: k' => some ⟨.objV ms (String.mk acc) :: k', .colon⟩
    | _ => none
  else complete k (.str (String.mk acc))

/-- The code unit `v` of a finished `\uXXXX` escape is appended to `acc`: a
low surrogate after a pending high surrogate completes the pair, any other
surrogate becomes U+FFFD. -/
def endEscape (acc : List Char) (hi : Option Nat) (v : Nat) : List Char × Option Nat :=
  if 0xDC00 ≤ v ∧ v < 0xE000 then
    match hi with
    | some h => (acc.dropLast ++ [Char.ofNat (0x10000 + (h - 0xD800) * 0x400 + (v - 0xDC00))], none)
    | none => (acc ++ [Char.ofNat 0xFFFD], none)
  else if 0xD800 ≤ v ∧ v < 0xDC00 then (acc ++ [Char.ofNat 0xFFFD], some v)
  else (acc ++ [Char.ofNat v], none)

/-- The character an escape letter stands for. -/
def unescape (c : Char) : Option Char :=
  if c = '"' then some '"'
  else if c = '\\' then some '\\'
  else if c = '/' then some '/'
  else if c = 'b' then some (Char.ofNat 8)
  else if c = 'f' then some (Char.ofNat 12)
  else if c = 'n' then some '\n'
  else if c = 'r' then some '\r'
  else if c = 't' then some '\t'
  else none

/-- One character of input. -/
def step (r : Reader) (c : Char) : Option Reader :=
  match r.mode with
  | .value => if isWs c then some r else startValue r.stack c
  | .arrFirst =>
    if isWs c then some r
    else if c = ']' then
      match r.stack with
      | .arr es :: k => complete k (.arr es)
      | _ => none
    else startValue r.stack c
  | .objFirst =>
    if isWs c then some r
    else if c = '"' then some ⟨r.stack, .str true [] none⟩
    else if c = '}' then
      match r.stack with
      | .obj ms :: k => complete k (.obj ms)
      | _ => none
    else none
  | .objKey =>
    if isWs c then some r
    else if c = '"' then some ⟨r.stack, .str true [] none⟩
    else none
  | .colon =>
    if isWs c then some r
    else if c = ':' then some ⟨r.stack, .value⟩
    else none
  | .after => stepDelim r c
  | .finished _ => stepDelim r c
  | .str isKey acc hi =>
    if c = '"' then endString r.stack isKey acc
    else if c = '\\' then some ⟨r.stack, .esc isKey acc hi⟩
    else if c.toNat < 0x20 then none
    else some ⟨r.stack, .str isKey (acc ++ [c]) none⟩
  | .esc isKey acc hi =>
    if c = 'u' then some ⟨r.stack, .uni isKey acc hi 0 0⟩
    else match unescape c with
      | some d => some ⟨r.stack, .str isKey (acc ++ [d]) none⟩
      | none => none
  | .uni isKey acc hi n v =>
    match hexVal c with
    | some d =>
      if n = 3 then
        some ⟨r.stack, .str isKey (endEscape acc hi (v * 16 + d)).1 (endEscape acc hi (v * 16 + d)).2⟩
      else some ⟨r.stack, .uni isKey acc hi (n + 1) (v * 16 + d)⟩
    | none => none
  | .lit rest v =>
    match rest with
    | [] => none
    | x :: more =>
      if c = x then
        match more with
        | [] => complete r.stack v
        | _ :: _ => some ⟨r.stack, .lit more v⟩
      else none
  | .number st acc =>
    match numStep st c with
    | some st' => some ⟨r.stack, .number st' (acc ++ [c])⟩
    | none =>
      if numAccept st then
        (complete r.stack (.num (String.mk acc))).bind (fun r' => stepDelim r' c)
      else none

/-- Feed the reader a run of characters. -/
def run : Reader → List Char → Option Reader
  | r, [] => some r
  | r, c :: cs => (step r c).bind (fun r' => run r' cs)

/-- End of input: the top-level value must be complete. -/
def finish (r : Reader) : Option JSON :=
  match r.mode, r.stack with
  | .finished v, [] => some v
  | .number st acc, [] => if numAccept st then some (.num (String.mk acc)) else none
  | _, _ => none

/-- The JSON value a text denotes; `none` when the text is not well-formed
JSON. -/
def parseJSON (s : String) : Option JSON :=
  (run ⟨[], .value⟩ s.toList).bind finish

/-- Names of the members of a JSON object, in order; `none` for any other
value. -/
def JSON.keys : JSON → Option (List String)
  | .obj ms => some (ms.map Prod.fst)
  | _ => none

/-- The member `k` of a JSON object (the last one, when the name repeats). -/
def JSON.member (k : String) : JSON → Option JSON
  | .obj ms => (ms.reverse.find? (fun kv => kv.1 = k)).map Prod.snd
  | _ => none

mutual
/-- Nesting depth of a value: 0 for a scalar, one more than the deepest element
or member for an array or an object. -/
def JSON.depth : JSON → Nat
  | .arr es => 1 + depthElems es
  | .obj ms => 1 + depthMembers ms
  | _ => 0
/-- Depth of the deepest element of an array. -/
def depthElems : List JSON → Nat
  | [] => 0
  | e :: es => max e.depth (depthElems es)
/-- Depth of the deepest member value of an object. -/
def depthMembers : List (String × JSON) → Nat
  | [] => 0
  | (_, v) :: ms => max v.depth (depthMembers ms)
end

/-! ## The Go library functions the program calls -/

/-- ASCII upper-casing, as `net/textproto` does it on header names (`c -= 32`
on `a` to `z`); every other rune is left as it is. -/
def upperRune (c : Char) : Char :=
  if 'a' ≤ c ∧ c ≤ 'z' then Char.ofNat (c.toNat - 32) else c

/-- ASCII lower-casing, as `net/textproto` does it on header names (`c += 32`
on `A` to `Z`); every other rune is left as it is. -/
def lowerRune (c : Char) : Char :=
  if 'A' ≤ c ∧ c ≤ 'Z' then Char.ofNat (c.toNat + 32) else c

/-- Go `strings.ToUpper`: every rune of the string is replaced by the rune
`unicode.ToUpper` gives for it.  The case table `upper` (Unicode's, in Go) is
not part of the repository and is a parameter. -/
def ToUpper (upper : Char → Char) (s : String) : String :=
  String.mk (s.toList.map upper)

/-- A Go string whose content comes from the network, as its bytes (numbers
below 256); it need not be valid UTF-8. -/
abbrev Bytes := List Nat

/-- Go `utf8.AppendRune`: the UTF-8 encoding of one rune. -/
def encodeRune (c : Char) : Bytes :=
  if c.toNat < 0x80 then [c.toNat]
  else if c.toNat < 0x800 then [0xC0 + c.toNat / 64, 0x80 + c.toNat % 64]
  else if c.toNat < 0x10000 then
    [0xE0 + c.toNat / 4096, 0x80 + c.toNat / 64 % 64, 0x80 + c.toNat % 64]
  else
    [0xF0 + c.toNat / 262144, 0x80 + c.toNat / 4096 % 64, 0x80 + c.toNat / 64 % 64,
      0x80 + c.toNat % 64]

/-- The bytes of a text: its UTF-8 encoding. -/
def utf8 (s : String) : Bytes :=
  s.toList.flatMap encodeRune

/-- A continuation byte of UTF-8. -/
def isCont (b : Nat) : Bool :=
  decide (0x80 ≤ b ∧ b ≤ 0xBF)

/-- Least second byte `unicode/utf8` accepts after the first byte `b0`. -/
def secondLo (b0 : Nat) : Nat :=
  if b0 = 0xE0 then 0xA0 else if b0 = 0xF0 then 0x90 else 0x80

/-- Greatest second byte `unicode/utf8` accepts after the first byte `b0`. -/
def secondHi (b0 : Nat) : Nat :=
  if b0 = 0xED then 0x9F else if b0 = 0xF4 then 0x8F else 0xBF

/-- Go `utf8.DecodeRuneInString` on a non-empty string: the first rune and
its width in bytes; `none` with width 1 stands for `(RuneError, 1)`, the
answer when the string does not begin with a valid encoding.  A byte that is
missing (the string is too short) counts as 256, which no test accepts. -/
def decodeRune (bs : Bytes) : Option Char × Nat :=
  if bs.getD 0 256 < 0x80 then (some (Char.ofNat (bs.getD 0 256)), 1)
  else if 0xC2 ≤ bs.getD 0 256 ∧ bs.getD 0 256 ≤ 0xDF then
    if isCont (bs.getD 1 256) then
      (some (Char.ofNat ((bs.getD 0 256 - 0xC0) * 64 + (bs.getD 1 256 - 0x80))), 2)
    else (none, 1)
  else if 0xE0 ≤ bs.getD 0 256 ∧ bs.getD 0 256 ≤ 0xEF then
    if secondLo (bs.getD 0 256) ≤ bs.getD 1 256 ∧ bs.getD 1 256 ≤ secondHi (bs.getD 0 256) ∧
        isCont (bs.getD 2 256) then
      (some (Char.ofNat ((bs.getD 0 256 - 0xE0) * 4096 + (bs.getD 1 256 - 0x80) * 64 +
        (bs.getD 2 256 - 0x80))), 3)
    else (none, 1)
  else if 0xF0 ≤ bs.getD 0 256 ∧ bs.getD 0 256 ≤ 0xF4 then
    if secondLo (bs.getD 0 256) ≤ bs.getD 1 256 ∧ bs.getD 1 256 ≤ secondHi (bs.getD 0 256) ∧
        isCont (bs.getD 2 256) ∧ isCont (bs.getD 3 256) then
      (some (Char.ofNat ((bs.getD 0 256 - 0xF0) * 262144 + (bs.getD 1 256 - 0x80) * 4096 +
        (bs.getD 2 256 - 0x80) * 64 + (bs.getD 3 256 - 0x80))), 4)
    else (none, 1)
  else (none, 1)

/-- The loop `for i < len(s) { c, size := DecodeRune(s[i:]); ...; i += size }`:
the runes of a Go string in order, `none` for every byte that begins no valid
encoding.  The argument `skip` counts the bytes of the current rune still to
be passed over. -/
def decodeRunes : Nat → Bytes → List (Option Char)
  | _, [] => []
  | skip + 1, _ :: rest => decodeRunes skip rest
  | 0, b :: rest => (decodeRune (b :: rest)).1 :: decodeRunes ((decodeRune (b :: rest)).2 - 1) rest

/-- The runes of a Go string. -/
def runes (b : Bytes) : List (Option Char) :=
  decodeRunes 0 b

/-- The text a list of runes stands for once every invalid byte has become
U+FFFD. -/
def decoded (l : List (Option Char)) : String :=
  String.mk (l.map (fun r => r.getD (Char.ofNat 0xFFFD)))

/-- The text `encoding/json` makes of a Go string: its runes, with U+FFFD for
every byte that is not part of a valid UTF-8 encoding. -/
def textOf (b : Bytes) : String :=
  decoded (runes b)

/-- Go `fmt.Sprintf` for a format with one `%s` verb and one string operand:
the operand replaces the verb, unchanged. -/
def sprintfChars : List Char → List Char → List Char
  | '%' :: 's' :: rest, a => a ++ rest
  | c :: rest, a => c :: sprintfChars rest a
  | [], _ => []

/-- Go `fmt.Sprintf(format, arg)` with a single `%s`. -/
def Sprintf (format arg : String) : String :=
  String.mk (sprintfChars format.toList arg.toList)

/-- The table `hex` of `encoding/json`. -/
def hexDigit (n : Nat) : Char :=
  "0123456789abcdef".toList.getD n '0'

/-- What `encoding/json` (`appendString`, HTML escaping on, as `json.Marshal`
sets it) writes for one rune of a string: the quote and the backslash get a
backslash, `\n \r \t` their letter, every other control character and `<`,
`>`, `&` the form `\u00XX`, U+2028 and U+2029 the form `\u202X`, and any other
rune is written as it is.  Go 1.22 and later write backspace and form feed as
`\b` and `\f`, earlier releases as `\u0008` and `\u000c`: `short` tells which. -/
def escapeRune (short : Bool) (c : Char) : List Char :=
  if c = '"' then ['\\', '"']
  else if c = '\\' then ['\\', '\\']
  else if c = Char.ofNat 8 ∧ short = true then ['\\', 'b']
  else if c = Char.ofNat 12 ∧ short = true then ['\\', 'f']
  else if c = '\n' then ['\\', 'n']
  else if c = '\r' then ['\\', 'r']
  else if c = '\t' then ['\\', 't']
  else if c.toNat < 0x20 ∨ c = '<' ∨ c = '>' ∨ c = '&' then
    ['\\', 'u', '0', '0', hexDigit (c.toNat / 16), hexDigit (c.toNat % 16)]
  else if c = Char.ofNat 0x2028 ∨ c = Char.ofNat 0x2029 then
    ['\\', 'u', '2', '0', '2', hexDigit (c.toNat % 16)]
  else [c]

/-- What `appendString` writes for one step of its loop: the escape
`\ufffd` for a byte that begins no valid encoding, and the form of
`escapeRune` for a rune. -/
def escapeItem (short : Bool) : Option Char → List Char
  | none => ['\\', 'u', 'f', 'f', 'f', 'd']
  | some c => escapeRune short c

/-- A JSON string literal as `encoding/json` writes it, from the runes of the
Go string. -/
def quoteRunes (short : Bool) (l : List (Option Char)) : List Char :=
  '"' :: (l.flatMap (escapeItem short) ++ ['"'])

/-- The JSON string literal `encoding/json` writes for a Go string that is
given as text. -/
def quote (short : Bool) (s : String) : List Char :=
  quoteRunes short (s.toList.map some)

/-- The JSON string literal `encoding/json` writes for a Go string given by
its bytes. -/
def quoteBytes (short : Bool) (b : Bytes) : List Char :=
  quoteRunes short (runes b)

/-- The items separated by commas. -/
def commaSep : List (List Char) → List Char
  | [] => []
  | [x] => x
  | x :: y :: rest => x ++ ',' :: commaSep (y :: rest)

/-- A Go `[]string` as a JSON array. -/
def marshalStrings (short : Bool) (vs : List Bytes) : List Char :=
  '[' :: (commaSep (vs.map (quoteBytes short)) ++ [']'])

/-- Go string comparison `a < b`: lexicographic on the bytes. -/
def ltBytes : Bytes → Bytes → Bool
  | _, [] => false
  | [], _ :: _ => true
  | a :: as, b :: bs => decide (a < b) || (decide (a = b) && ltBytes as bs)

/-- The entries of a Go map in the order `encoding/json` writes them: sorted
by key. -/
def sortedEntries (h : List (Bytes × List Bytes)) : List (Bytes × List Bytes) :=
  h.insertionSort (fun a b => ltBytes b.1 a.1 = false)

/-- One `"name":[...]` member of the marshalled header map. -/
def marshalEntry (short : Bool) (kv : Bytes × List Bytes) : List Char :=
  quoteBytes short kv.1 ++ ':' :: marshalStrings short kv.2

/-- The JSON member a header entry is written as: the text of its name and the
array of the texts of its values. -/
def entryJSON (kv : Bytes × List Bytes) : String × JSON :=
  (textOf kv.1, .arr (kv.2.map (fun v => .str (textOf v))))

/-- A Go `map[string][]string` (a non-nil map) as a JSON object with its keys
sorted. -/
def marshalHeaders (short : Bool) (h : List (Bytes × List Bytes)) : List Char :=
  '{' :: (commaSep ((sortedEntries h).map (marshalEntry short)) ++ ['}'])

/-- A finite map as a list of entries with distinct keys: `mapSet` overwrites
the entry of a key that is present and appends one for a key that is not. -/
def mapSet {α : Type} : List (String × α) → String → α → List (String × α)
  | [], k, v => [(k, v)]
  | (k', v') :: m, k, v => if k' = k then (k, v) :: m else (k', v') :: mapSet m k v

/-- The value a finite map holds for a key. -/
def mapGet {α : Type} : List (String × α) → String → Option α
  | [], _ => none
  | (k', v') :: m, k => if k' = k then some v' else mapGet m k

/-- What `json.Unmarshal` stores for one member of an object whose target is a
`map[string]string`: a JSON string is stored decoded; for any other value the
entry is still written, with the zero value `""` (Unmarshal records a type
error for it, except for `null`, and goes on). -/
def memberString : JSON → String
  | .str s => s
  | _ => ""

/-- The constant `maxNestingDepth` of `encoding/json`: its scanner refuses a
text in which more than this many arrays and objects are open at once. -/
def maxNestingDepth : Nat := 10000

/-- Go `json.Unmarshal([]byte(text), &headers)` for `var headers
map[string]string`, with the returned error dropped as `main` drops it: text
that is not valid JSON, or that nests deeper than `maxNestingDepth`, leaves
the map nil, and so does a top-level value that is not an object; an object
fills the map member by member, a later member with the same name overwriting
an earlier one. -/
def unmarshalHeaders (text : String) : List (String × String) :=
  match parseJSON text with
  | some (.obj ms) =>
    if (JSON.obj ms).depth ≤ maxNestingDepth then
      ms.foldl (fun m kv => mapSet m kv.1 (memberString kv.2)) []
    else []
  | _ => []

/-- The bytes `net/textproto` accepts in a header field name (`token`
characters). -/
def validHeaderFieldByte (c : Char) : Bool :=
  decide ('0' ≤ c ∧ c ≤ '9') || decide ('a' ≤ c ∧ c ≤ 'z') || decide ('A' ≤ c ∧ c ≤ 'Z') ||
    ['!', '#', '$', '%', '&', Char.ofNat 39, '*', '+', '-', '.', '^', '_', Char.ofNat 96, '|',
      '~'].contains c

/-- The canonicalising loop of `net/textproto`: upper case for the first
letter and for a letter after a hyphen, lower case for the others. -/
def canonicalize : Bool → List Char → List Char
  | _, [] => []
  | upper, c :: cs =>
    (if upper then upperRune c else lowerRune c) ::
      canonicalize (decide ((if upper then upperRune c else lowerRune c) = '-')) cs

/-- Go `textproto.CanonicalMIMEHeaderKey`: a name made of token characters is
canonicalised, any other name is returned unchanged. -/
def CanonicalMIMEHeaderKey (s : String) : String :=
  if s.toList.all validHeaderFieldByte then String.mk (canonicalize true s.toList) else s

/-! ## The program -/

/-- The struct `Response` with its JSON tags: `status`, `headers`, `body` and
`error,omitempty`. -/
structure Response where
  Status : Int
  Headers : List (Bytes × List Bytes)
  Body : Bytes
  Error : Bytes

/-- Go `json.Marshal` of a `Response`: the fields in declaration order under
their tag names, the field `Error` left out when it is the empty string.  The
text written is valid UTF-8 whatever the bytes of the fields. -/
def marshalChars (short : Bool) (r : Response) : List Char :=
  "\x7b\"status\":".toList ++ (toString r.Status).toList ++
    ",\"headers\":".toList ++ marshalHeaders short r.Headers ++
    ",\"body\":".toList ++ quoteBytes short r.Body ++
    (if r.Error = [] then [] else ",\"error\":".toList ++ quoteBytes short r.Error) ++ ['}']

/-- The text `string(jsonOutput)` of line 71. -/
def marshal (short : Bool) (r : Response) : String :=
  String.mk (marshalChars short r)

/-- The part of an `*http.Request` the program determines: method, URL, body
and the header map. -/
structure Request where
  method : String
  url : String
  body : String
  header : List (String × List String)
deriving DecidableEq

/-- Go `Header.Set(key, value)`: the entry of the canonical form of `key`
becomes the single value `value`. -/
def Request.setHeader (r : Request) (key value : String) : Request :=
  { r with header := mapSet r.header (CanonicalMIMEHeaderKey key) [value] }

/-- What a successful `client.Do` gives the program: status code, header map
(names and values as the bytes received), and the outcome of
`io.ReadAll(resp.Body)`, namely the bytes read and the error that stopped the
reading, if any. -/
structure ServerResponse where
  statusCode : Int
  header : List (Bytes × List Bytes)
  body : Bytes
  readErr : Option String

/-- The world outside the process.  `shortEscapes` tells whether the Go release
is 1.22 or later (see `escapeRune`); `upper` is the case table of
`unicode.ToUpper`; `newRequest method url` is the error message of
`http.NewRequest`, if it rejects the method or the URL; `rangeOrder` is the
order in which `range` visits the entries of the header map; `roundTrip` is
the outcome of `client.Do` (with its 10-second timeout): an error message or a
response. -/
structure Env where
  shortEscapes : Bool
  upper : Char → Char
  newRequest : String → String → Option String
  rangeOrder : List (String × String) → List (String × String)
  roundTrip : Request → Except String ServerResponse

/-- The calls that leave the process, in the order they are made. -/
inductive Event where
  | newRequest (method url body : String)
  | send (req : Request)
  | readAll
deriving DecidableEq

/-- What one run of the program does: the texts written to standard output,
one per print call, and the outside calls made. -/
structure Outcome where
  stdout : List String
  trace : List Event
deriving DecidableEq

/-- The usage text of line 23. -/
def usageLine : String :=
  "\x7b\"error\": \"Usage: http_client <method> <url> [headers_json] [body]\"\x7d"

/-- The format of lines 47 and 57. -/
def errorFormat : String :=
  "\x7b\"error\": \"%s\"\x7d"

/-- The request `http.NewRequest` returns when it succeeds: the method (`GET`
for the empty method), the URL, the body, and no header. -/
def freshRequest (method url body : String) : Request :=
  ⟨if method = "" then "GET" else method, url, body, []⟩

/-- The loop of lines 51 to 53 over the entries in the order given. -/
def setHeaders (entries : List (String × String)) (req : Request) : Request :=
  entries.foldl (fun r kv => r.setHeader kv.1 kv.2) req

/-- The function `main` of `tools/http_client.go`; `args` is `os.Args`. -/
def main (env : Env) (args : List String) : Outcome :=
  if args.length < 3 then
    ⟨[usageLine ++ "\n"], []⟩
  else
    let method := ToUpper env.upper (args.getD 1 "")
    let urlString := args.getD 2 ""
    let headersJson := if args.length > 3 then args.getD 3 "" else "{}"
    let bodyContent := if args.length > 4 then args.getD 4 "" else ""
    let headers := unmarshalHeaders headersJson
    match env.newRequest method urlString with
    | some err =>
      ⟨[Sprintf errorFormat err], [.newRequest method urlString bodyContent]⟩
    | none =>
      let req := setHeaders (env.rangeOrder headers) (freshRequest method urlString bodyContent)
      match env.roundTrip req with
      | .error err =>
        ⟨[Sprintf errorFormat err], [.newRequest method urlString bodyContent, .send req]⟩
      | .ok resp =>
        let result : Response := ⟨resp.statusCode, resp.header, resp.body, []⟩
        ⟨[marshal env.shortEscapes result ++ "\n"],
          [.newRequest method urlString bodyContent, .send req, .readAll]⟩

/-! ## Notions the statements use -/

/-- The request lines 45 to 53 hand to `client.Do` for a method, a URL, a
header text and a body: the fresh request with the decoded header entries set
in the order `range` visits them. -/
def requestFor (env : Env) (method url headersJson body : String) : Request :=
  setHeaders (env.rangeOrder (unmarshalHeaders headersJson)) (freshRequest method url body)

/-- A message without quote, backslash or control character: text that needs
no escaping inside a JSON string. -/
def plainText (m : String) : Prop :=
  ∀ c ∈ m.toList, c ≠ '"' ∧ c ≠ '\\' ∧ 0x20 ≤ c.toNat

/-- The text is the error envelope carrying `m`: the format of lines 47 and 57
with `m` in the place of `%s`, with or without the newline `Println` adds
(line 23 prints this shape too). -/
def IsErrorEnvelope (t m : String) : Prop :=
  t = Sprintf errorFormat m ∨ t = Sprintf errorFormat m ++ "\n"

/-- Number of calls of `client.Do` in a trace. -/
def sends (t : List Event) : Nat :=
  (t.filter (fun e => match e with
    | .send _ => true
    | _ => false)).length

/-! ## Sample environments

The case table of the samples is `upperRune`: it agrees with `unicode.ToUpper`
on the ASCII runes and on the Kelvin sign U+212A (an upper-case letter, its
own upper-case form), the only runes of the methods the samples use. -/

/-- An environment in which `http.NewRequest` rejects the URL with the message
`url.Parse` gives for `://bad`. -/
def envRefused : Env :=
  ⟨true, upperRune, fun _ _ => some "parse \"://bad\": missing protocol scheme", id,
    fun _ => .error "unused"⟩

/-- An environment in which the host cannot be resolved: `client.Do` fails. -/
def envUnreachable : Env :=
  ⟨true, upperRune, fun _ _ => none, id, fun _ => .error
    "Get \"http://unreachable.invalid/\": dial tcp: lookup unreachable.invalid: no such host"⟩

/-- An environment whose server answers 204 with one header and no body; the
header map is visited in the order of insertion. -/
def envNoContent : Env :=
  ⟨true, upperRune, fun _ _ => none, id,
    fun _ => .ok ⟨204, [(utf8 "Content-Type", [utf8 "text/plain"])], [], none⟩⟩

/-- The same server, with the header map visited in the opposite order. -/
def envReversed : Env :=
  ⟨true, upperRune, fun _ _ => none, List.reverse,
    fun _ => .ok ⟨204, [(utf8 "Content-Type", [utf8 "text/plain"])], [], none⟩⟩

/-- An environment whose server answers 200 and stalls while sending the body:
the 10-second timeout fires inside `io.ReadAll` after three bytes. -/
def envReadTimeout : Env :=
  ⟨true, upperRune, fun _ _ => none, id, fun _ => .ok ⟨200, [], utf8 "par", some
    "context deadline exceeded (Client.Timeout or context cancellation while reading body)"⟩⟩

/-- An environment whose server answers 200 with the three body bytes
`FF 41 C3`, which are not valid UTF-8. -/
def envBinary : Env :=
  ⟨true, upperRune, fun _ _ => none, id, fun _ => .ok ⟨200, [], [0xFF, 0x41, 0xC3], none⟩⟩

/-- An environment in which `http.NewRequest` accepts the method `GET` and
rejects every other method with the message it gives for `G T`. -/
def envBadMethod : Env :=
  ⟨true, upperRune, fun method _ =>
    if method = "GET" then none else some "net/http: invalid method \"G T\"", id,
    fun _ => .ok ⟨204, [], [], none⟩⟩

@[simp] theorem run_nil (r : Reader) : run r [] = some r := rfl

@[simp] theorem run_cons (r : Reader) (c : Char) (cs : List Char) :
    run r (c :: cs) = (step r c).bind (fun r' => run r' cs) := rfl

/-- The hexadecimal digits of the table are read back as their index. -/
theorem hexVal_hexDigit : ∀ d, d < 16 → hexVal (hexDigit d) = some d := by
  decide

/-- Reading a whole escape of four hexadecimal digits inside a string. -/
theorem run_u4 (k : List Frame) (isKey : Bool) (acc : List Char) (hi : Option Nat)
    (a b c d : Char) (va vb vc vd : Nat)
    (ha : hexVal a = some va) (hb : hexVal b = some vb) (hc : hexVal c = some vc)
    (hd : hexVal d = some vd) :
    run ⟨k, .str isKey acc hi⟩ ['\\', 'u', a, b, c, d] =
      some ⟨k, .str isKey (endEscape acc hi (((va * 16 + vb) * 16 + vc) * 16 + vd)).1
        (endEscape acc hi (((va * 16 + vb) * 16 + vc) * 16 + vd)).2⟩ := by
  simp [step, ha, hb, hc, hd]

/-- A code unit below the surrogates is appended as its character. -/
theorem endEscape_plain (acc : List Char) (v : Nat) (h : v < 0xD800 ∨ 0xE000 ≤ v) :
    endEscape acc none v = (acc ++ [Char.ofNat v], none) := by
  unfold endEscape
  rw [if_neg (by omega), if_neg (by omega)]

/-- What is written for one rune is read back, inside a string, as that rune. -/
theorem run_escapeRune (short : Bool) (k : List Frame) (isKey : Bool) (acc : List Char)
    (c : Char) :
    run ⟨k, .str isKey acc none⟩ (escapeRune short c) =
      some ⟨k, .str isKey (acc ++ [c]) none⟩ := by
  unfold escapeRune
  split_ifs with h1 h2 h3 h4 h5 h6 h7 h8 h9
  · subst h1; simp [step, unescape]
  · subst h2; simp [step, unescape]
  · obtain ⟨rfl, _⟩ := h3
    simp [step, unescape]
  · obtain ⟨rfl, _⟩ := h4
    simp [step, unescape]
  · subst h5; simp [step, unescape]
  · subst h6; simp [step, unescape]
  · subst h7; simp [step, unescape]
  · have hlt : c.toNat < 64 := by
      rcases h8 with h | h | h | h
      · omega
      · subst h; decide
      · subst h; decide
      · subst h; decide
    rw [run_u4 k isKey acc none '0' '0' _ _ 0 0 (c.toNat / 16) (c.toNat % 16) (by decide)
      (by decide) (hexVal_hexDigit _ (by omega)) (hexVal_hexDigit _ (by omega))]
    have hv : ((0 * 16 + 0) * 16 + c.toNat / 16) * 16 + c.toNat % 16 = c.toNat := by omega
    rw [hv, endEscape_plain _ _ (Or.inl (by omega)), Char.ofNat_toNat]
  · rcases h9 with h | h
    · subst h
      rw [run_u4 k isKey acc none '2' '0' '2' _ 2 0 2 8 (by decide) (by decide) (by decide)
        (by decide)]
      rw [endEscape_plain _ _ (Or.inl (by decide))]
    · subst h
      rw [run_u4 k isKey acc none '2' '0' '2' _ 2 0 2 9 (by decide) (by decide) (by decide)
        (by decide)]
      rw [endEscape_plain _ _ (Or.inl (by decide))]
  · have h20 : ¬ c.toNat < 32 := fun h => h8 (Or.inl h)
    simp [step, h1, h2, h20]

/-- Reading a concatenation is reading its parts in turn. -/
theorem run_append (r : Reader) (xs ys : List Char) :
    run r (xs ++ ys) = (run r xs).bind (fun r' => run r' ys) := by
  induction xs generalizing r with
  | nil => simp
  | cons c cs ih =>
    simp only [List.cons_append, run_cons]
    cases step r c with
    | none => simp
    | some r' => simpa using ih r'

theorem complete_arr (k : List Frame) (es : List JSON) (v : JSON) :
    complete (.arr es :: k) v = some ⟨.arr (es ++ [v]) :: k, .after⟩ := rfl

theorem complete_objV (k : List Frame) (ms : List (String × JSON)) (key : String) (v : JSON) :
    complete (.objV ms key :: k) v = some ⟨.obj (ms ++ [(key, v)]) :: k, .after⟩ := rfl

theorem complete_nil (v : JSON) : complete [] v = some ⟨[], .finished v⟩ := rfl

/-- What is written for one step of the loop of `appendString` is read back,
inside a string, as the rune, or as U+FFFD for an invalid byte. -/
theorem run_escapeItem (short : Bool) (k : List Frame) (isKey : Bool) (acc : List Char)
    (r : Option Char) :
    run ⟨k, .str isKey acc none⟩ (escapeItem short r) =
      some ⟨k, .str isKey (acc ++ [r.getD (Char.ofNat 0xFFFD)]) none⟩ := by
  cases r with
  | some c => exact run_escapeRune short k isKey acc c
  | none =>
    unfold escapeItem
    rw [run_u4 k isKey acc none 'f' 'f' 'f' 'd' 15 15 15 13 (by decide) (by decide) (by decide)
      (by decide), endEscape_plain _ _ (Or.inr (by decide))]
    rfl

/-- The escaped form of a Go string is read back, inside a string, as its
text. -/
theorem run_escaped (short : Bool) (k : List Frame) (isKey : Bool) (l : List (Option Char))
    (acc : List Char) :
    run ⟨k, .str isKey acc none⟩ (l.flatMap (escapeItem short)) =
      some ⟨k, .str isKey (acc ++ l.map (fun r => r.getD (Char.ofNat 0xFFFD))) none⟩ := by
  induction l generalizing acc with
  | nil => simp
  | cons c cs ih =>
    rw [List.flatMap_cons, run_append, run_escapeItem, Option.some_bind, ih]
    simp

/-- Reading a marshalled string where a value is expected yields its text. -/
theorem run_quoteRunes_value (short : Bool) (k : List Frame) (l : List (Option Char)) :
    run ⟨k, .value⟩ (quoteRunes short l) = complete k (.str (decoded l)) := by
  unfold quoteRunes
  rw [run_cons]
  have h0 : step ⟨k, .value⟩ '"' = some ⟨k, .str false [] none⟩ := by
    simp [step, startValue, isWs]
  rw [h0, Option.some_bind, run_append, run_escaped, Option.some_bind]
  simp [step, endString, decoded]

/-- A marshalled string as the first element of an array. -/
theorem run_quoteRunes_first (short : Bool) (k : List Frame) (es : List JSON)
    (l : List (Option Char)) :
    run ⟨.arr es :: k, .arrFirst⟩ (quoteRunes short l) =
      complete (.arr es :: k) (.str (decoded l)) := by
  unfold quoteRunes
  rw [run_cons]
  have h0 : step ⟨.arr es :: k, .arrFirst⟩ '"' = some ⟨.arr es :: k, .str false [] none⟩ := by
    simp [step, startValue, isWs]
  rw [h0, Option.some_bind, run_append, run_escaped, Option.some_bind]
  simp [step, endString, decoded]

/-- A marshalled string where a member name is expected becomes the pending
key. -/
theorem run_quoteRunes_key (short : Bool) (k : List Frame) (ms : List (String × JSON))
    (l : List (Option Char)) (md : Mode) (hmd : md = .objFirst ∨ md = .objKey) :
    run ⟨.obj ms :: k, md⟩ (quoteRunes short l) =
      some ⟨.objV ms (decoded l) :: k, .colon⟩ := by
  unfold quoteRunes
  rw [run_cons]
  have h0 : step ⟨.obj ms :: k, md⟩ '"' = some ⟨.obj ms :: k, .str true [] none⟩ := by
    rcases hmd with h | h <;> subst h <;> simp [step, isWs]
  rw [h0, Option.some_bind, run_append, run_escaped, Option.some_bind]
  simp [step, endString, decoded]

/-- A text, taken as runes, stands for itself. -/
theorem decoded_some (s : String) : decoded (s.toList.map some) = s := by
  unfold decoded
  rw [List.map_map]
  have : (fun r : Option Char => r.getD (Char.ofNat 0xFFFD)) ∘ some = id := rfl
  rw [this, List.map_id]
  cases s
  rfl

/-- A member name given as text becomes the pending key. -/
theorem run_quote_key (short : Bool) (k : List Frame) (ms : List (String × JSON)) (s : String)
    (md : Mode) (hmd : md = .objFirst ∨ md = .objKey) :
    run ⟨.obj ms :: k, md⟩ (quote short s) = some ⟨.objV ms s :: k, .colon⟩ := by
  unfold quote
  rw [run_quoteRunes_key short k ms _ md hmd, decoded_some]

/-- A non-empty comma-separated list is its head followed by the comma-prefixed rest. -/
theorem commaSep_cons (x : List Char) (xs : List (List Char)) :
    commaSep (x :: xs) = x ++ xs.flatMap (fun y => ',' :: y) := by
  induction xs generalizing x with
  | nil => simp [commaSep]
  | cons y ys ih => rw [commaSep, ih]; simp

/-- The further elements of a marshalled array of strings. -/
theorem run_more_strings (short : Bool) (k : List Frame) (vs : List Bytes) (es : List JSON) :
    run ⟨.arr es :: k, .after⟩ ((vs.map (quoteBytes short)).flatMap (fun y => ',' :: y)) =
      some ⟨.arr (es ++ vs.map (fun v => .str (textOf v))) :: k, .after⟩ := by
  induction vs generalizing es with
  | nil => simp
  | cons v vs ih =>
    rw [List.map_cons, List.flatMap_cons, List.cons_append, run_cons]
    have h0 : step ⟨.arr es :: k, .after⟩ ',' = some ⟨.arr es :: k, .value⟩ := by
      simp [step, stepDelim, isWs]
    rw [h0, Option.some_bind, run_append, quoteBytes, run_quoteRunes_value, complete_arr,
      Option.some_bind, ih]
    simp [textOf]

/-- Reading a marshalled `[]string` where a value is expected yields the array
of its strings. -/
theorem run_marshalStrings (short : Bool) (k : List Frame) (vs : List Bytes) :
    run ⟨k, .value⟩ (marshalStrings short vs) =
      complete k (.arr (vs.map (fun v => .str (textOf v)))) := by
  unfold marshalStrings
  rw [run_cons]
  have h0 : step ⟨k, .value⟩ '[' = some ⟨.arr [] :: k, .arrFirst⟩ := by
    simp [step, startValue, isWs]
  rw [h0, Option.some_bind]
  cases vs with
  | nil => simp [commaSep, step, isWs]
  | cons v vs =>
    rw [List.map_cons, commaSep_cons, List.append_assoc, run_append, quoteBytes,
      run_quoteRunes_first]
    rw [complete_arr, Option.some_bind, run_append, run_more_strings]
    simp [step, stepDelim, isWs, textOf]

/-- The characters of the decimal digits, and the one that is the zero. -/
theorem digitChar_isDigit : ∀ m, m < 10 →
    isDigit (Nat.digitChar m) = true ∧ (Nat.digitChar m = '0' → m = 0) := by
  decide

/-- Shape of what `Nat.toDigitsCore` puts before `ds`, given enough fuel. -/
theorem toDigitsCore_shape (fuel : Nat) : ∀ (n : Nat) (ds : List Char), n < fuel →
    ∃ d rest, Nat.toDigitsCore 10 fuel n ds = d :: (rest ++ ds) ∧ isDigit d = true ∧
      (∀ c ∈ rest, isDigit c = true) ∧ (d = '0' → n = 0 ∧ rest = []) := by
  induction fuel with
  | zero => intro n ds h; omega
  | succ fuel ih =>
    intro n ds h
    have hd := digitChar_isDigit (n % 10) (Nat.mod_lt _ (by decide))
    unfold Nat.toDigitsCore
    by_cases h0 : n / 10 = 0
    · simp only [h0, if_true]
      refine ⟨Nat.digitChar (n % 10), [], by simp, hd.1, by simp, fun hz => ⟨?_, rfl⟩⟩
      have := hd.2 hz
      omega
    · simp only [h0, if_false]
      obtain ⟨d, rest, he, hdig, hrest, hz⟩ := ih (n / 10) (Nat.digitChar (n % 10) :: ds) (by omega)
      refine ⟨d, rest ++ [Nat.digitChar (n % 10)], by simp [he], hdig, ?_, ?_⟩
      · intro c hc
        rcases List.mem_append.mp hc with h1 | h1
        · exact hrest c h1
        · rw [List.mem_singleton.mp h1]; exact hd.1
      · intro hd0
        exact absurd (hz hd0).1 h0

/-- The decimal numeral of a natural number: one digit, or a non-zero digit
followed by digits. -/
theorem natRepr_shape (n : Nat) :
    ∃ d rest, (Nat.repr n).toList = d :: rest ∧ isDigit d = true ∧
      (∀ c ∈ rest, isDigit c = true) ∧ (d = '0' → rest = []) := by
  obtain ⟨d, rest, he, hd, hr, hz⟩ := toDigitsCore_shape (n + 1) n [] (by omega)
  refine ⟨d, rest, ?_, hd, hr, fun h => (hz h).2⟩
  simp [Nat.repr, Nat.toDigits, he, List.asString]

/-- A decimal digit is no whitespace and opens no other kind of value. -/
theorem isDigit_facts (c : Char) (h : isDigit c = true) :
    isWs c = false ∧ c ≠ '"' ∧ c ≠ '[' ∧ c ≠ '{' ∧ c ≠ 't' ∧ c ≠ 'f' ∧ c ≠ 'n' ∧ c ≠ '-' := by
  simp only [isDigit, decide_eq_true_eq, Char.le_def] at h
  refine ⟨?_, ?_, ?_, ?_, ?_, ?_, ?_, ?_⟩
  · simp only [isWs, Bool.or_eq_false_iff, decide_eq_false_iff_not]
    refine ⟨⟨⟨?_, ?_⟩, ?_⟩, ?_⟩ <;> (rintro rfl; revert h; decide)
  all_goals (rintro rfl; revert h; decide)

/-- Digits extend the integer part of a number lexeme. -/
theorem run_digits (k : List Frame) (ds acc : List Char) (h : ∀ c ∈ ds, isDigit c = true) :
    run ⟨k, .number .int acc⟩ ds = some ⟨k, .number .int (acc ++ ds)⟩ := by
  induction ds generalizing acc with
  | nil => simp
  | cons c cs ih =>
    have hc : isDigit c = true := h c (List.mem_cons_self _ _)
    rw [run_cons]
    have h0 : step ⟨k, .number .int acc⟩ c = some ⟨k, .number .int (acc ++ [c])⟩ := by
      simp [step, numStep, hc]
    rw [h0, Option.some_bind, ih _ (fun x hx => h x (List.mem_cons_of_mem _ hx))]
    simp

/-- A numeral without leading zero is read as a number, with or without a minus sign before it. -/
theorem run_numeral (k : List Frame) (d : Char) (rest : List Char) (hd : isDigit d = true)
    (hr : ∀ c ∈ rest, isDigit c = true) (hz : d = '0' → rest = []) :
    ∃ st, (st = NumSt.zero ∨ st = NumSt.int) ∧
      run ⟨k, .value⟩ (d :: rest) = some ⟨k, .number st (d :: rest)⟩ ∧
      run ⟨k, .number .minus ['-']⟩ (d :: rest) = some ⟨k, .number st ('-' :: d :: rest)⟩ := by
  obtain ⟨hws, h1, h2, h3, h4, h5, h6, h7⟩ := isDigit_facts d hd
  by_cases h : d = '0'
  · refine ⟨.zero, Or.inl rfl, ?_, ?_⟩
    · rw [hz h]; subst h; simp [step, startValue, isWs]
    · rw [hz h]; subst h; simp [step, numStep]
  · refine ⟨.int, Or.inr rfl, ?_, ?_⟩
    · rw [run_cons]
      have h0 : step ⟨k, .value⟩ d = some ⟨k, .number .int [d]⟩ := by
        simp [step, startValue, hws, h1, h2, h3, h4, h5, h6, h7, h, hd]
      rw [h0, Option.some_bind, run_digits k rest [d] hr]
      simp
    · rw [run_cons]
      have h0 : step ⟨k, .number .minus ['-']⟩ d = some ⟨k, .number .int ['-', d]⟩ := by
        simp [step, numStep, h, hd]
      rw [h0, Option.some_bind, run_digits k rest ['-', d] hr]
      simp

/-- Reading the decimal numeral of a Go `int` where a value is expected leaves
the reader inside a number lexeme that may end there. -/
theorem run_itoa (k : List Frame) (i : Int) :
    ∃ st, (st = NumSt.zero ∨ st = NumSt.int) ∧
      run ⟨k, .value⟩ (toString i).toList = some ⟨k, .number st (toString i).toList⟩ := by
  cases i with
  | ofNat n =>
    obtain ⟨d, rest, he, hd, hr, hz⟩ := natRepr_shape n
    obtain ⟨st, hst, h1, _⟩ := run_numeral k d rest hd hr hz
    refine ⟨st, hst, ?_⟩
    have : (toString (Int.ofNat n)).toList = d :: rest := by
      rw [← he]; rfl
    rw [this, h1]
  | negSucc n =>
    obtain ⟨d, rest, he, hd, hr, hz⟩ := natRepr_shape (n + 1)
    obtain ⟨st, hst, _, h2⟩ := run_numeral k d rest hd hr hz
    refine ⟨st, hst, ?_⟩
    have : (toString (Int.negSucc n)).toList = '-' :: d :: rest := by
      rw [← he]; rfl
    rw [this, run_cons]
    have h0 : step ⟨k, .value⟩ '-' = some ⟨k, .number .minus ['-']⟩ := by
      simp [step, startValue, isWs]
    rw [h0, Option.some_bind, h2]

/-- A comma or a closing brace ends an integer lexeme and is then read as a delimiter. -/
theorem step_number_delim (k : List Frame) (st : NumSt) (acc : List Char) (c : Char)
    (hst : st = NumSt.zero ∨ st = NumSt.int) (hc : c = ',' ∨ c = '}') :
    step ⟨k, .number st acc⟩ c =
      (complete k (.num (String.mk acc))).bind (fun r => stepDelim r c) := by
  rcases hst with h | h <;> rcases hc with h2 | h2 <;> subst h <;> subst h2 <;>
    simp [step, numStep, numAccept, isDigit]

/-- One marshalled header entry read as a member of the enclosing object. -/
theorem run_marshalEntry (short : Bool) (k : List Frame) (ms : List (String × JSON)) (md : Mode)
    (hmd : md = .objFirst ∨ md = .objKey) (kv : Bytes × List Bytes) :
    run ⟨.obj ms :: k, md⟩ (marshalEntry short kv) =
      some ⟨.obj (ms ++ [entryJSON kv]) :: k, .after⟩ := by
  unfold marshalEntry
  rw [run_append, quoteBytes, run_quoteRunes_key short k ms _ md hmd, Option.some_bind, run_cons]
  have h0 : step ⟨.objV ms (decoded (runes kv.1)) :: k, .colon⟩ ':' =
      some ⟨.objV ms (decoded (runes kv.1)) :: k, .value⟩ := by
    simp [step, isWs]
  rw [h0, Option.some_bind, run_marshalStrings, complete_objV]
  rfl

/-- The further entries of a marshalled header map. -/
theorem run_more_entries (short : Bool) (k : List Frame) (l : List (Bytes × List Bytes))
    (ms : List (String × JSON)) :
    run ⟨.obj ms :: k, .after⟩ ((l.map (marshalEntry short)).flatMap (fun y => ',' :: y)) =
      some ⟨.obj (ms ++ l.map entryJSON) :: k, .after⟩ := by
  induction l generalizing ms with
  | nil => simp
  | cons kv l ih =>
    rw [List.map_cons, List.flatMap_cons, List.cons_append, run_cons]
    have h0 : step ⟨.obj ms :: k, .after⟩ ',' = some ⟨.obj ms :: k, .objKey⟩ := by
      simp [step, stepDelim, isWs]
    rw [h0, Option.some_bind, run_append, run_marshalEntry short k ms _ (Or.inr rfl),
      Option.some_bind,
      ih]
    simp

/-- Reading a marshalled map of string lists where a value is expected yields
the object of its entries, in the order written. -/
theorem run_entries (short : Bool) (k : List Frame) (l : List (Bytes × List Bytes)) :
    run ⟨k, .value⟩ ('{' :: (commaSep (l.map (marshalEntry short)) ++ ['}'])) =
      complete k (.obj (l.map entryJSON)) := by
  rw [run_cons]
  have h0 : step ⟨k, .value⟩ '{' = some ⟨.obj [] :: k, .objFirst⟩ := by
    simp [step, startValue, isWs]
  rw [h0, Option.some_bind]
  cases l with
  | nil => simp [commaSep, step, isWs]
  | cons kv l =>
    rw [List.map_cons, commaSep_cons, List.append_assoc, run_append,
      run_marshalEntry short k [] _ (Or.inl rfl), Option.some_bind, run_append,
      run_more_entries]
    simp [step, stepDelim, isWs]

/-- Reading a marshalled header map where a value is expected. -/
theorem run_marshalHeaders (short : Bool) (k : List Frame) (h : List (Bytes × List Bytes)) :
    run ⟨k, .value⟩ (marshalHeaders short h) =
      complete k (.obj ((sortedEntries h).map entryJSON)) :=
  run_entries short k _

theorem toList_mk (l : List Char) : (String.mk l).toList = l := rfl

theorem step_obj_comma (k : List Frame) (ms : List (String × JSON)) :
    step ⟨.obj ms :: k, .after⟩ ',' = some ⟨.obj ms :: k, .objKey⟩ := by
  simp [step, stepDelim, isWs]

theorem step_obj_close (k : List Frame) (ms : List (String × JSON)) :
    step ⟨.obj ms :: k, .after⟩ '}' = complete k (.obj ms) := by
  simp [step, stepDelim, isWs]

theorem step_colon (k : List Frame) :
    step ⟨k, .colon⟩ ':' = some ⟨k, .value⟩ := by
  simp [step, isWs]

/-- A named member whose value is a string, read after a separating comma. -/
theorem run_string_member (short : Bool) (k : List Frame) (ms : List (String × JSON))
    (name : String) (value : Bytes) :
    run ⟨.obj ms :: k, .after⟩ (',' :: (quote short name ++ ':' :: quoteBytes short value)) =
      some ⟨.obj (ms ++ [(name, .str (textOf value))]) :: k, .after⟩ := by
  rw [run_cons, step_obj_comma, Option.some_bind, run_append,
    run_quote_key short k ms name _ (Or.inr rfl), Option.some_bind, run_cons, step_colon,
    Option.some_bind, quoteBytes, run_quoteRunes_value, complete_objV]
  rfl

/-- The text `json.Marshal` writes for a `Response` is well-formed JSON: an
object with the members `status`, `headers`, `body`, in this order, followed by
`error` exactly when the field `Error` is not empty. -/
theorem parseJSON_marshal (short : Bool) (r : Response) :
    parseJSON (marshal short r) = some (.obj ([("status", .num (toString r.Status)),
      ("headers", .obj ((sortedEntries r.Headers).map entryJSON)),
      ("body", .str (textOf r.Body))] ++
      if r.Error = [] then [] else [("error", .str (textOf r.Error))])) := by
  have e1 : "\x7b\"status\":".toList = '{' :: (quote short "status" ++ [':']) := by
    cases short <;> decide
  have e2 : ",\"headers\":".toList = ',' :: (quote short "headers" ++ [':']) := by
    cases short <;> decide
  have e3 : ",\"body\":".toList = ',' :: (quote short "body" ++ [':']) := by
    cases short <;> decide
  have e4 : ",\"error\":".toList = ',' :: (quote short "error" ++ [':']) := by
    cases short <;> decide
  obtain ⟨st, hst, hnum⟩ := run_itoa [.objV [] "status"] r.Status
  have hopen : step ⟨[], .value⟩ '{' = some ⟨[.obj []], .objFirst⟩ := by
    simp [step, startValue, isWs]
  have hcomma : step ⟨[.objV [] "status"], .number st (toString r.Status).toList⟩ ',' =
      some ⟨[.obj [("status", .num (toString r.Status))]], .objKey⟩ := by
    rw [step_number_delim _ _ _ _ hst (Or.inl rfl), complete_objV, Option.some_bind]
    simp [stepDelim, isWs]
  have hhead : run ⟨[], .value⟩ ("\x7b\"status\":".toList ++ (toString r.Status).toList ++
      ",\"headers\":".toList ++ marshalHeaders short r.Headers ++ ",\"body\":".toList ++
      quoteBytes short r.Body) =
      some ⟨[.obj [("status", .num (toString r.Status)),
        ("headers", .obj ((sortedEntries r.Headers).map entryJSON)),
        ("body", .str (textOf r.Body))]], .after⟩ := by
    rw [e1, e2, e3]
    simp only [List.append_assoc, List.cons_append, List.nil_append]
    rw [run_cons, hopen, Option.some_bind, run_append,
      run_quote_key short [] [] _ _ (Or.inl rfl),
      Option.some_bind, run_cons, step_colon, Option.some_bind, run_append, hnum,
      Option.some_bind, run_cons, hcomma, Option.some_bind, run_append,
      run_quote_key short [] _ _ _ (Or.inr rfl), Option.some_bind, run_cons, step_colon,
      Option.some_bind, run_append, run_marshalHeaders, complete_objV, Option.some_bind,
      run_string_member]
    rfl
  unfold parseJSON marshal marshalChars
  rw [toList_mk, run_append, run_append, hhead, Option.some_bind]
  by_cases hE : r.Error = []
  · simp only [hE, if_true, run_nil, Option.some_bind, run_cons, step_obj_close, complete_nil]
    simp [finish]
  · simp only [hE, if_false]
    rw [e4]
    simp only [List.append_assoc, List.cons_append, List.nil_append]
    rw [run_string_member, Option.some_bind, run_cons, step_obj_close, complete_nil]
    simp [finish]

/-- The run with fewer than two user arguments. -/
theorem main_usage (env : Env) (args : List String) (h : args.length < 3) :
    main env args = ⟨[usageLine ++ "\n"], []⟩ := by
  simp [main, h]

/-- The run with at least two user arguments, by cases on the two outside calls. -/
theorem main_args (env : Env) (prog a1 a2 : String) (opt : List String) :
    main env (prog :: a1 :: a2 :: opt) =
      match env.newRequest (ToUpper env.upper a1) a2 with
      | some err =>
        ⟨[Sprintf errorFormat err], [.newRequest (ToUpper env.upper a1) a2 (opt.getD 1 "")]⟩
      | none =>
        match env.roundTrip
          (requestFor env (ToUpper env.upper a1) a2 (opt.getD 0 "\x7b\x7d") (opt.getD 1 "")) with
        | .error err =>
          ⟨[Sprintf errorFormat err], [.newRequest (ToUpper env.upper a1) a2 (opt.getD 1 ""),
            .send (requestFor env (ToUpper env.upper a1) a2 (opt.getD 0 "\x7b\x7d") (opt.getD 1 ""))]⟩
        | .ok resp =>
          ⟨[marshal env.shortEscapes ⟨resp.statusCode, resp.header, resp.body, []⟩ ++ "\n"],
            [.newRequest (ToUpper env.upper a1) a2 (opt.getD 1 ""),
              .send (requestFor env (ToUpper env.upper a1) a2 (opt.getD 0 "\x7b\x7d") (opt.getD 1 "")),
              .readAll]⟩ := by
  have h3 : ¬ (prog :: a1 :: a2 :: opt).length < 3 := by simp
  have hh : (if (prog :: a1 :: a2 :: opt).length > 3 then (prog :: a1 :: a2 :: opt).getD 3 ""
      else "\x7b\x7d") = opt.getD 0 "\x7b\x7d" := by
    cases opt <;> simp
  have hb : (if (prog :: a1 :: a2 :: opt).length > 4 then (prog :: a1 :: a2 :: opt).getD 4 ""
      else "") = opt.getD 1 "" := by
    rcases opt with _ | ⟨h, _ | ⟨b, rest⟩⟩ <;> simp
  unfold main
  rw [if_neg h3]
  simp only [hh, hb]
  rfl

/-- The run in which `http.NewRequest` fails. -/
theorem main_refused (env : Env) (prog a1 a2 : String) (opt : List String) (err : String)
    (h : env.newRequest (ToUpper env.upper a1) a2 = some err) :
    main env (prog :: a1 :: a2 :: opt) =
      ⟨[Sprintf errorFormat err], [.newRequest (ToUpper env.upper a1) a2 (opt.getD 1 "")]⟩ := by
  rw [main_args, h]

/-- The run in which the request is built and `client.Do` fails. -/
theorem main_failed (env : Env) (prog a1 a2 : String) (opt : List String) (err : String)
    (h : env.newRequest (ToUpper env.upper a1) a2 = none)
    (hr : env.roundTrip
      (requestFor env (ToUpper env.upper a1) a2 (opt.getD 0 "\x7b\x7d") (opt.getD 1 "")) = .error err) :
    main env (prog :: a1 :: a2 :: opt) =
      ⟨[Sprintf errorFormat err], [.newRequest (ToUpper env.upper a1) a2 (opt.getD 1 ""),
        .send (requestFor env (ToUpper env.upper a1) a2 (opt.getD 0 "\x7b\x7d") (opt.getD 1 ""))]⟩ := by
  rw [main_args, h]
  simp only
  rw [hr]

/-- The run in which the request is built and `client.Do` returns a response. -/
theorem main_answered (env : Env) (prog a1 a2 : String) (opt : List String)
    (resp : ServerResponse) (h : env.newRequest (ToUpper env.upper a1) a2 = none)
    (hr : env.roundTrip
      (requestFor env (ToUpper env.upper a1) a2 (opt.getD 0 "\x7b\x7d") (opt.getD 1 "")) = .ok resp) :
    main env (prog :: a1 :: a2 :: opt) =
      ⟨[marshal env.shortEscapes ⟨resp.statusCode, resp.header, resp.body, []⟩ ++ "\n"],
        [.newRequest (ToUpper env.upper a1) a2 (opt.getD 1 ""),
          .send (requestFor env (ToUpper env.upper a1) a2 (opt.getD 0 "\x7b\x7d") (opt.getD 1 "")),
          .readAll]⟩ := by
  rw [main_args, h]
  simp only
  rw [hr]

/-- Upper-casing a string is upper-casing its runes. -/
theorem ToUpper_toList (upper : Char → Char) (s : String) :
    (ToUpper upper s).toList = s.toList.map upper := rfl

/-- The error format with a message in the place of the verb. -/
theorem Sprintf_errorFormat (m : String) :
    Sprintf errorFormat m = "\x7b\"error\": \"" ++ m ++ "\"\x7d" := by
  rfl

theorem Sprintf_errorFormat_toList (m : String) :
    (Sprintf errorFormat m).toList =
      '{' :: (quote false "error" ++ ':' :: ' ' :: '"' :: (m.toList ++ ['"', '}'])) := by
  rfl

/-- The usage line is the error format around the usage message. -/
theorem usageLine_eq :
    usageLine = Sprintf errorFormat "Usage: http_client <method> <url> [headers_json] [body]" := by
  decide

/-- Text that needs no escaping is read, inside a string, as itself. -/
theorem run_plain (k : List Frame) (isKey : Bool) (s acc : List Char)
    (h : ∀ c ∈ s, c ≠ '"' ∧ c ≠ '\\' ∧ 0x20 ≤ c.toNat) :
    run ⟨k, .str isKey acc none⟩ s = some ⟨k, .str isKey (acc ++ s) none⟩ := by
  induction s generalizing acc with
  | nil => simp
  | cons c cs ih =>
    obtain ⟨h1, h2, h3⟩ := h c (List.mem_cons_self _ _)
    rw [run_cons]
    have h0 : step ⟨k, .str isKey acc none⟩ c = some ⟨k, .str isKey (acc ++ [c]) none⟩ := by
      have : ¬ c.toNat < 32 := by omega
      simp [step, h1, h2, this]
    rw [h0, Option.some_bind, ih _ (fun x hx => h x (List.mem_cons_of_mem _ hx))]
    simp

/-- An error envelope whose message has no quote, backslash or control
character is well-formed JSON with the single member `error`. -/
theorem parseJSON_error_plain (m : String) (h : plainText m) :
    parseJSON (Sprintf errorFormat m) = some (.obj [("error", .str m)]) := by
  unfold parseJSON
  rw [Sprintf_errorFormat_toList, run_cons]
  have hopen : step ⟨[], .value⟩ '{' = some ⟨[.obj []], .objFirst⟩ := by
    simp [step, startValue, isWs]
  have hsp : step ⟨[.objV [] "error"], .value⟩ ' ' = some ⟨[.objV [] "error"], .value⟩ := by
    simp [step, isWs]
  have hq : step ⟨[.objV [] "error"], .value⟩ '"' =
      some ⟨[.objV [] "error"], .str false [] none⟩ := by
    simp [step, startValue, isWs]
  rw [hopen, Option.some_bind, run_append, run_quote_key false [] [] _ _ (Or.inl rfl),
    Option.some_bind,
    run_cons, step_colon, Option.some_bind, run_cons, hsp, Option.some_bind, run_cons, hq,
    Option.some_bind, run_append, run_plain _ _ _ _ h, Option.some_bind]
  simp [step, endString, complete, stepDelim, isWs, finish]

/-- An error envelope is never the text of a marshalled `Response`: the third characters differ. -/
theorem error_ne_marshal (short : Bool) (m : String) (r : Response) :
    Sprintf errorFormat m ≠ marshal short r ++ "\n" ∧
    Sprintf errorFormat m ++ "\n" ≠ marshal short r ++ "\n" := by
  have h1 : ∀ x : String, ((Sprintf errorFormat m) ++ x).toList.get? 2 = some 'e' := fun _ => rfl
  have h2 : (marshal short r ++ "\n").toList.get? 2 = some 's' := rfl
  constructor
  · intro h
    have := h1 ""
    rw [String.append_empty, h, h2] at this
    exact absurd this (by decide)
  · intro h
    have := h1 "\n"
    rw [h, h2] at this
    exact absurd this (by decide)

/-- Looking up after `mapSet`. -/
theorem mapGet_mapSet {α : Type} (m : List (String × α)) (k k' : String) (v : α) :
    mapGet (mapSet m k v) k' = if k = k' then some v else mapGet m k' := by
  induction m with
  | nil => simp [mapSet, mapGet]
  | cons e m ih =>
    obtain ⟨k1, v1⟩ := e
    unfold mapSet
    by_cases h1 : k1 = k
    · subst h1
      simp only [if_true, mapGet]
      by_cases h2 : k1 = k' <;> simp [h2]
    · simp only [h1, if_false, mapGet, ih]
      by_cases h2 : k1 = k'
      · subst h2
        simp [Ne.symm h1]
      · simp [h2]

/-- Looking up in a map filled member by member: the last member of the name decides. -/
theorem mapGet_foldl_mapSet (f : JSON → String) (ms : List (String × JSON))
    (init : List (String × String)) (k : String) :
    mapGet (ms.foldl (fun m kv => mapSet m kv.1 (f kv.2)) init) k =
      match ms.reverse.find? (fun kv => kv.1 = k) with
      | some kv => some (f kv.2)
      | none => mapGet init k := by
  induction ms generalizing init with
  | nil => simp
  | cons e ms ih =>
    rw [List.foldl_cons, ih, List.reverse_cons, List.find?_append]
    cases hf : ms.reverse.find? (fun kv => kv.1 = k) with
    | some kv => simp
    | none =>
      simp only [Option.none_or, mapGet_mapSet]
      by_cases he : e.1 = k
      · simp [List.find?, he]
      · simp [List.find?, he]

/-- Text that is not the text of a JSON object nested within the limit decodes
to the empty mapping. -/
theorem unmarshalHeaders_of_not_object (text : String)
    (h : ∀ ms, parseJSON text = some (.obj ms) → maxNestingDepth < (JSON.obj ms).depth) :
    unmarshalHeaders text = [] := by
  unfold unmarshalHeaders
  cases hp : parseJSON text with
  | none => rfl
  | some v =>
    cases v with
    | obj ms =>
      have := h ms hp
      simp only
      rw [if_neg (by omega)]
    | _ => rfl

/-- The text of a JSON object nested within the limit decodes member by
member. -/
theorem unmarshalHeaders_of_object (text : String) (ms : List (String × JSON))
    (hp : parseJSON text = some (.obj ms)) (hd : (JSON.obj ms).depth ≤ maxNestingDepth) :
    unmarshalHeaders text = ms.foldl (fun m kv => mapSet m kv.1 (memberString kv.2)) [] := by
  unfold unmarshalHeaders
  rw [hp]
  simp only
  rw [if_pos hd]

theorem setHeaders_cons (e : String × String) (es : List (String × String)) (req : Request) :
    setHeaders (e :: es) req = setHeaders es (req.setHeader e.1 e.2) := rfl

/-- The loop leaves alone a header name that no entry canonicalises to. -/
theorem mapGet_setHeaders_of_not_mem (es : List (String × String)) (req : Request)
    (name : String) (h : name ∉ es.map (fun kv => CanonicalMIMEHeaderKey kv.1)) :
    mapGet (setHeaders es req).header name = mapGet req.header name := by
  induction es generalizing req with
  | nil => rfl
  | cons e es ih =>
    simp only [List.map_cons, List.mem_cons, not_or] at h
    rw [setHeaders_cons, ih _ h.2]
    simp only [Request.setHeader, mapGet_mapSet]
    rw [if_neg (fun hh => h.1 hh.symm)]

/-- With pairwise distinct canonical names, the loop stores every entry under its canonical name. -/
theorem mapGet_setHeaders_of_mem (es : List (String × String)) (req : Request)
    (hd : (es.map (fun kv => CanonicalMIMEHeaderKey kv.1)).Nodup) (k v : String)
    (h : (k, v) ∈ es) :
    mapGet (setHeaders es req).header (CanonicalMIMEHeaderKey k) = some [v] := by
  induction es generalizing req with
  | nil => simp at h
  | cons e es ih =>
    rw [List.map_cons, List.nodup_cons] at hd
    rw [setHeaders_cons]
    rcases List.mem_cons.mp h with h1 | h1
    · subst h1
      rw [mapGet_setHeaders_of_not_mem _ _ _ hd.1]
      simp [Request.setHeader, mapGet_mapSet]
    · exact ih _ hd.2 h1

/-- Once the request is built and sent, an error of `io.ReadAll` changes
nothing: whatever stopped the reading, `main` prints the success envelope with
the status, the headers and the bytes read so far. -/
theorem read_error_dropped (env : Env) (prog a1 a2 : String) (opt : List String)
    (s : Int) (h : List (Bytes × List Bytes)) (b : Bytes) (e : String)
    (hn : env.newRequest (ToUpper env.upper a1) a2 = none)
    (hr : env.roundTrip
      (requestFor env (ToUpper env.upper a1) a2 (opt.getD 0 "\x7b\x7d") (opt.getD 1 "")) =
        .ok ⟨s, h, b, some e⟩) :
    (main env (prog :: a1 :: a2 :: opt)).stdout = [marshal env.shortEscapes ⟨s, h, b, []⟩ ++ "\n"] ∧
    (parseJSON (marshal env.shortEscapes ⟨s, h, b, []⟩)).bind JSON.keys = some ["status", "headers", "body"] := by
  rw [main_answered env prog a1 a2 opt _ hn hr]
  refine ⟨rfl, ?_⟩
  rw [parseJSON_marshal]
  rfl
/-- Bytes still to be passed over are passed over. -/
theorem decodeRunes_skip (tl rest : Bytes) :
    decodeRunes tl.length (tl ++ rest) = decodeRunes 0 rest := by
  induction tl with
  | nil => rfl
  | cons b tl ih =>
    rw [List.length_cons, List.cons_append]
    cases h : tl ++ rest with
    | nil =>
      rw [h] at ih
      have h1 : tl = [] := (List.append_eq_nil.mp h).1
      have h2 : rest = [] := (List.append_eq_nil.mp h).2
      subst h1 h2
      rfl
    | cons x xs =>
      rw [← h]
      show decodeRunes tl.length (tl ++ rest) = _
      exact ih

/-- The scalar values: the numbers a rune can be. -/
theorem char_valid (c : Char) :
    c.toNat < 0xD800 ∨ (0xDFFF < c.toNat ∧ c.toNat < 0x110000) := c.valid

/-- Go `utf8.DecodeRune` reads back what `utf8.AppendRune` wrote. -/
theorem decodeRune_encodeRune (c : Char) (rest : Bytes) :
    decodeRune (encodeRune c ++ rest) = (some c, (encodeRune c).length) := by
  have hv := char_valid c
  have hc : Char.ofNat c.toNat = c := Char.ofNat_toNat c
  revert hc hv
  unfold encodeRune
  generalize c.toNat = n
  intro hv hc
  by_cases h1 : n < 0x80
  · simp [h1, decodeRune, hc]
  · by_cases h2 : n < 0x800
    · have e : (0xC0 + n / 64 - 0xC0) * 64 + (0x80 + n % 64 - 0x80) = n := by omega
      simp only [h1, h2, if_true, if_false, decodeRune, List.cons_append, List.nil_append,
        List.getD_cons_zero, List.getD_cons_succ, isCont, e, hc]
      rw [if_neg (by omega), if_pos (by omega)]
      simp
      omega
    · by_cases h3 : n < 0x10000
      · have e : (0xE0 + n / 4096 - 0xE0) * 4096 + (0x80 + n / 64 % 64 - 0x80) * 64 +
            (0x80 + n % 64 - 0x80) = n := by omega
        have hcond : secondLo (0xE0 + n / 4096) ≤ 0x80 + n / 64 % 64 ∧
            0x80 + n / 64 % 64 ≤ secondHi (0xE0 + n / 4096) ∧
            isCont (0x80 + n % 64) = true := by
          unfold secondLo secondHi isCont
          refine ⟨?_, ?_, ?_⟩
          · split_ifs <;> omega
          · split_ifs <;> omega
          · simp; omega
        simp only [h1, h2, h3, if_true, if_false, decodeRune, List.cons_append, List.nil_append,
          List.getD_cons_zero, List.getD_cons_succ, e, hc]
        rw [if_neg (by omega), if_neg (by omega), if_pos (by omega), if_pos hcond]
        rfl
      · have e : (0xF0 + n / 262144 - 0xF0) * 262144 + (0x80 + n / 4096 % 64 - 0x80) * 4096 +
            (0x80 + n / 64 % 64 - 0x80) * 64 + (0x80 + n % 64 - 0x80) = n := by omega
        have hcond : secondLo (0xF0 + n / 262144) ≤ 0x80 + n / 4096 % 64 ∧
            0x80 + n / 4096 % 64 ≤ secondHi (0xF0 + n / 262144) ∧
            isCont (0x80 + n / 64 % 64) = true ∧ isCont (0x80 + n % 64) = true := by
          unfold secondLo secondHi isCont
          refine ⟨?_, ?_, ?_, ?_⟩
          · split_ifs <;> omega
          · split_ifs <;> omega
          · simp; omega
          · simp; omega
        simp only [h1, h2, h3, if_true, if_false, decodeRune, List.cons_append, List.nil_append,
          List.getD_cons_zero, List.getD_cons_succ, e, hc]
        rw [if_neg (by omega), if_neg (by omega), if_neg (by omega), if_pos (by omega),
          if_pos hcond]
        rfl

/-- The runes of an encoded rune followed by more bytes. -/
theorem decodeRunes_encodeRune (c : Char) (rest : Bytes) :
    decodeRunes 0 (encodeRune c ++ rest) = some c :: decodeRunes 0 rest := by
  have h := decodeRune_encodeRune c rest
  cases he : encodeRune c with
  | nil =>
    exfalso
    revert he
    unfold encodeRune
    split_ifs <;> simp
  | cons b tl =>
    rw [he] at h
    rw [List.cons_append]
    show (decodeRune (b :: (tl ++ rest))).1 ::
      decodeRunes ((decodeRune (b :: (tl ++ rest))).2 - 1) (tl ++ rest) = _
    rw [← List.cons_append, h]
    simp only [List.length_cons, Nat.add_sub_cancel]
    rw [decodeRunes_skip]

/-- The runes of the bytes of a text are the runes of the text: no byte is
invalid. -/
theorem runes_utf8 (s : String) : runes (utf8 s) = s.toList.map some := by
  unfold runes utf8
  induction s.toList with
  | nil => rfl
  | cons c cs ih =>
    rw [List.flatMap_cons, decodeRunes_encodeRune, ih, List.map_cons]

/-- The text of the bytes of a text is that text. -/
theorem textOf_utf8 (s : String) : textOf (utf8 s) = s := by
  unfold textOf
  rw [runes_utf8, decoded_some]

/-- How often `main` calls `client.Do`: once when there are at least two user
arguments and the request is built, never otherwise. -/
theorem sends_main (env : Env) (args : List String) :
    sends (main env args).trace =
      (if 3 ≤ args.length ∧
          env.newRequest (ToUpper env.upper (args.getD 1 "")) (args.getD 2 "") = none
        then 1 else 0) := by
  by_cases h3 : args.length < 3
  · rw [main_usage env args h3, if_neg (by omega)]
    rfl
  · obtain ⟨prog, a1, a2, opt, rfl⟩ : ∃ prog a1 a2 opt, args = prog :: a1 :: a2 :: opt := by
      rcases args with _ | ⟨p, _ | ⟨a, _ | ⟨b, rest⟩⟩⟩ <;> simp at h3
      exact ⟨p, a, b, rest, rfl⟩
    have hlen : 3 ≤ (prog :: a1 :: a2 :: opt).length := by simp
    have hg1 : (prog :: a1 :: a2 :: opt).getD 1 "" = a1 := rfl
    have hg2 : (prog :: a1 :: a2 :: opt).getD 2 "" = a2 := rfl
    rw [hg1, hg2]
    cases hn : env.newRequest (ToUpper env.upper a1) a2 with
    | some err =>
      rw [main_refused env prog a1 a2 opt err hn, if_neg (by simp)]
      rfl
    | none =>
      rw [if_pos ⟨hlen, rfl⟩]
      cases hr : env.roundTrip
          (requestFor env (ToUpper env.upper a1) a2 (opt.getD 0 "\x7b\x7d") (opt.getD 1 "")) with
      | error err => rw [main_failed env prog a1 a2 opt err hn hr]; rfl
      | ok resp => rw [main_answered env prog a1 a2 opt resp hn hr]; rfl

/-- On both failure paths the one text printed is the error format with the
message pasted in the place of `%s`, unescaped; the body is not read and no
marshalled `Response` is printed. -/
theorem failure_output (env : Env) (prog a1 a2 : String) (opt : List String) (m : String)
    (hfail : env.newRequest (ToUpper env.upper a1) a2 = some m ∨
      (env.newRequest (ToUpper env.upper a1) a2 = none ∧
        env.roundTrip
          (requestFor env (ToUpper env.upper a1) a2 (opt.getD 0 "\x7b\x7d") (opt.getD 1 "")) =
          .error m)) :
    (main env (prog :: a1 :: a2 :: opt)).stdout = ["\x7b\"error\": \"" ++ m ++ "\"\x7d"] ∧
    Event.readAll ∉ (main env (prog :: a1 :: a2 :: opt)).trace ∧
    (∀ short r, marshal short r ++ "\n" ∉ (main env (prog :: a1 :: a2 :: opt)).stdout) := by
  have hout : (main env (prog :: a1 :: a2 :: opt)).stdout = [Sprintf errorFormat m] ∧
      Event.readAll ∉ (main env (prog :: a1 :: a2 :: opt)).trace := by
    rcases hfail with h | ⟨h, hr⟩
    · rw [main_refused env prog a1 a2 opt m h]; simp
    · rw [main_failed env prog a1 a2 opt m h hr]; simp
  refine ⟨by rw [hout.1, Sprintf_errorFormat], hout.2, ?_⟩
  intro short r hr
  rw [hout.1, List.mem_singleton] at hr
  exact (error_ne_marshal short m r).1 hr.symm

/-! ## The claims -/

/-- C1: for every argument vector with fewer than two user arguments
(`len(os.Args) < 3`), `main` prints exactly the usage line and makes no outside
call: no request is built and the transport is not invoked. -/
theorem usage_error (env : Env) (args : List String) (h : args.length < 3) :
    (main env args).stdout =
      ["\x7b\"error\": \"Usage: http_client <method> <url> [headers_json] [body]\"\x7d\n"] ∧
    (main env args).trace = [] := by
  rw [main_usage env args h]
  exact ⟨by decide, rfl⟩

/-- C1 at the argument vector of scenario 2, the single argument `GET`. -/
theorem usage_error_witness :
    ["http_client", "GET"].length < 3 ∧
    ((main envRefused ["http_client", "GET"]).stdout =
      ["\x7b\"error\": \"Usage: http_client <method> <url> [headers_json] [body]\"\x7d\n"] ∧
    (main envRefused ["http_client", "GET"]).trace = []) :=
  ⟨by decide, usage_error envRefused ["http_client", "GET"] (by decide)⟩

/-- C2, at the URL `://bad`: `http.NewRequest` fails with the message
`parse "://bad": missing protocol scheme`, `main` pastes the message between
the quotes of the format without escaping it, and the text printed is not
well-formed JSON (so no `error` member can be decoded from it). -/
theorem error_message_not_escaped :
    (main envRefused ["http_client", "GET", "://bad"]).stdout =
      ["\x7b\"error\": \"parse \"://bad\": missing protocol scheme\"\x7d"] ∧
    parseJSON "\x7b\"error\": \"parse \"://bad\": missing protocol scheme\"\x7d" = none :=
  ⟨by decide, by rfl⟩

/-- C3, at scenario 3, a host that cannot be resolved: `client.Do` fails with
the message `Get "http://unreachable.invalid/": dial tcp: ...`, line 57 pastes
it between the quotes of the format unescaped, and the text printed is not
well-formed JSON: it is no JSON object, so it is not the error envelope
carrying the message.  (The body is not read: the trace ends with the
send.) -/
theorem send_failure_not_json :
    (main envUnreachable ["http_client", "get", "http://unreachable.invalid/"]).stdout =
      ["\x7b\"error\": \"Get \"http://unreachable.invalid/\": dial tcp: lookup unreachable.invalid: no such host\"\x7d"] ∧
    parseJSON "\x7b\"error\": \"Get \"http://unreachable.invalid/\": dial tcp: lookup unreachable.invalid: no such host\"\x7d" = none ∧
    (main envUnreachable ["http_client", "get", "http://unreachable.invalid/"]).trace =
      [.newRequest "GET" "http://unreachable.invalid/" "",
        .send ⟨"GET", "http://unreachable.invalid/", "", []⟩] :=
  ⟨by decide, by rfl, by decide⟩

/-- C4 fails at a body that is not valid UTF-8: the server answers 200 with the
body bytes `FF 41 C3`; `json.Marshal` writes U+FFFD for each of the two invalid
bytes, so the member `body` of the text printed is the text U+FFFD `A` U+FFFD,
whose bytes are not the body received. -/
theorem binary_body_replaced :
    (main envBinary ["http_client", "GET", "http://h/"]).stdout =
      ["\x7b\"status\":200,\"headers\":\x7b\x7d,\"body\":\"\\ufffdA\\ufffd\"\x7d\n"] ∧
    parseJSON "\x7b\"status\":200,\"headers\":\x7b\x7d,\"body\":\"\\ufffdA\\ufffd\"\x7d" =
      some (.obj [("status", .num "200"), ("headers", .obj []),
        ("body", .str (String.mk [Char.ofNat 0xFFFD, 'A', Char.ofNat 0xFFFD]))]) ∧
    utf8 (String.mk [Char.ofNat 0xFFFD, 'A', Char.ofNat 0xFFFD]) =
      [0xEF, 0xBF, 0xBD, 0x41, 0xEF, 0xBF, 0xBD] ∧
    utf8 (String.mk [Char.ofNat 0xFFFD, 'A', Char.ofNat 0xFFFD]) ≠ [0xFF, 0x41, 0xC3] :=
  ⟨by decide, by rfl, by decide, by decide⟩

/-- C4, amended: when the request is built and the transport returns a
response with status code `s`, header map `h` and body `b`, the one text
printed is a line whose content is well-formed JSON: one object whose members
are, in this order, `status` (the decimal numeral of `s`), `headers` (the
entries of `h` in the order of their names, each name with the array of its
values) and `body`, and nothing else: there is no `error` member.  Every
string is printed as its text, that is with U+FFFD for each byte that is not
part of a valid UTF-8 encoding; a string that is valid UTF-8 is printed as it
is. -/
theorem success_envelope (env : Env) (prog a1 a2 : String) (opt : List String)
    (resp : ServerResponse) (hn : env.newRequest (ToUpper env.upper a1) a2 = none)
    (hr : env.roundTrip
      (requestFor env (ToUpper env.upper a1) a2 (opt.getD 0 "\x7b\x7d") (opt.getD 1 "")) =
        .ok resp) :
    (main env (prog :: a1 :: a2 :: opt)).stdout =
      [marshal env.shortEscapes ⟨resp.statusCode, resp.header, resp.body, []⟩ ++ "\n"] ∧
    parseJSON (marshal env.shortEscapes ⟨resp.statusCode, resp.header, resp.body, []⟩) =
      some (.obj [("status", .num (toString resp.statusCode)),
        ("headers", .obj ((sortedEntries resp.header).map
          (fun kv => (textOf kv.1, JSON.arr (kv.2.map (fun v => JSON.str (textOf v))))))),
        ("body", .str (textOf resp.body))]) ∧
    (sortedEntries resp.header).Perm resp.header ∧
    (∀ t : String, textOf (utf8 t) = t) := by
  refine ⟨by rw [main_answered env prog a1 a2 opt resp hn hr], ?_, List.perm_insertionSort _ _,
    textOf_utf8⟩
  rw [parseJSON_marshal]
  rfl

/-- C4, amended, at scenario 1, a server answering 204 without a body. -/
theorem success_envelope_witness :
    envNoContent.newRequest (ToUpper envNoContent.upper "GET")
      "https://example.com/status/204" = none ∧
    envNoContent.roundTrip (requestFor envNoContent (ToUpper envNoContent.upper "GET")
      "https://example.com/status/204" (([] : List String).getD 0 "\x7b\x7d")
      (([] : List String).getD 1 "")) =
      .ok ⟨204, [(utf8 "Content-Type", [utf8 "text/plain"])], [], none⟩ ∧
    (main envNoContent ["http_client", "GET", "https://example.com/status/204"]).stdout =
      ["\x7b\"status\":204,\"headers\":\x7b\"Content-Type\":[\"text/plain\"]\x7d,\"body\":\"\"\x7d\n"] ∧
    parseJSON "\x7b\"status\":204,\"headers\":\x7b\"Content-Type\":[\"text/plain\"]\x7d,\"body\":\"\"\x7d" =
      some (.obj [("status", .num "204"),
        ("headers", .obj [("Content-Type", .arr [.str "text/plain"])]), ("body", .str "")]) :=
  have h := success_envelope envNoContent "http_client" "GET" "https://example.com/status/204" []
    ⟨204, [(utf8 "Content-Type", [utf8 "text/plain"])], [], none⟩ rfl rfl
  ⟨rfl, rfl, h.1, h.2.1⟩

/-- C5, at a server that answers 200 and then stalls inside the body: the
10-second timeout fires while `io.ReadAll` reads, which returns the three bytes
read and the timeout error; line 62 drops that error and `main` prints a
success envelope with the partial body.  The text printed is no error
envelope, and its members are `status`, `headers` and `body`. -/
theorem read_failure_prints_success :
    envReadTimeout.roundTrip (requestFor envReadTimeout (ToUpper envReadTimeout.upper "GET")
      "http://slow.example/" "\x7b\x7d" "") = .ok ⟨200, [], utf8 "par", some
      "context deadline exceeded (Client.Timeout or context cancellation while reading body)"⟩ ∧
    (main envReadTimeout ["http_client", "GET", "http://slow.example/"]).stdout =
      ["\x7b\"status\":200,\"headers\":\x7b\x7d,\"body\":\"par\"\x7d\n"] ∧
    (¬ ∃ m, IsErrorEnvelope "\x7b\"status\":200,\"headers\":\x7b\x7d,\"body\":\"par\"\x7d\n" m) ∧
    (parseJSON "\x7b\"status\":200,\"headers\":\x7b\x7d,\"body\":\"par\"\x7d").bind JSON.keys =
      some ["status", "headers", "body"] := by
  refine ⟨rfl, by decide, ?_, by rfl⟩
  rintro ⟨m, hm | hm⟩
  · exact (error_ne_marshal true m ⟨200, [], utf8 "par", []⟩).1 (hm.symm.trans (by decide))
  · exact (error_ne_marshal true m ⟨200, [], utf8 "par", []⟩).2 (hm.symm.trans (by decide))

/-- C6 fails at the header argument `{"a":"b","c":1}`: it is valid JSON, its
decoding into a string-to-string mapping fails on the member `c`, and the
mapping is not empty: it holds `a` with `b` and `c` with the empty string; the
request carries the two headers, and the run differs from the run with the
header argument `{}`. -/
theorem object_members_kept :
    (parseJSON "\x7b\"a\":\"b\",\"c\":1\x7d").isSome = true ∧
    unmarshalHeaders "\x7b\"a\":\"b\",\"c\":1\x7d" = [("a", "b"), ("c", "")] ∧
    (main envNoContent ["http_client", "GET", "http://h/", "\x7b\"a\":\"b\",\"c\":1\x7d"]).trace =
      [.newRequest "GET" "http://h/" "",
        .send ⟨"GET", "http://h/", "", [("A", ["b"]), ("C", [""])]⟩, .readAll] ∧
    (main envNoContent ["http_client", "GET", "http://h/", "\x7b\x7d"]).trace =
      [.newRequest "GET" "http://h/" "", .send ⟨"GET", "http://h/", "", []⟩, .readAll] ∧
    main envNoContent ["http_client", "GET", "http://h/", "\x7b\"a\":\"b\",\"c\":1\x7d"] ≠
      main envNoContent ["http_client", "GET", "http://h/", "\x7b\x7d"] :=
  ⟨by decide, by decide, by rfl, by rfl, by decide⟩

/-- C6, amended: for every header argument that is not the text of a JSON
object nested no deeper than 10000 containers (text that is not valid JSON, a
valid value of another kind, or text that nests too deep) the header mapping
is empty and the run is the run with the header argument `{}`: same request,
same output, no error for this reason.  For the text of a JSON object within
that depth the mapping has an entry for every member name, holding the
member's string, or the empty string when the member (the last of that name)
is not a string. -/
theorem undecodable_headers_empty (env : Env) (prog a1 a2 text : String) (rest : List String) :
    ((∀ ms, parseJSON text = some (.obj ms) → maxNestingDepth < (JSON.obj ms).depth) →
      unmarshalHeaders text = [] ∧
      main env (prog :: a1 :: a2 :: text :: rest) =
        main env (prog :: a1 :: a2 :: "\x7b\x7d" :: rest)) ∧
    (∀ ms, parseJSON text = some (.obj ms) → (JSON.obj ms).depth ≤ maxNestingDepth →
      ∀ k, mapGet (unmarshalHeaders text) k = ((JSON.obj ms).member k).map memberString) := by
  constructor
  · intro h
    have h0 := unmarshalHeaders_of_not_object text h
    have h1 : unmarshalHeaders "\x7b\x7d" = [] := by decide
    refine ⟨h0, ?_⟩
    rw [main_args, main_args]
    simp only [requestFor, List.getD_cons_zero, h0, h1]
    rfl
  · intro ms hp hd k
    rw [unmarshalHeaders_of_object text ms hp hd]
    simp only [JSON.member, mapGet_foldl_mapSet]
    cases ms.reverse.find? (fun kv => kv.1 = k) <;> rfl

/-- C6, amended, at a header argument that is not JSON and at the object
`{"a":"b","c":1}`. -/
theorem undecodable_headers_empty_witness :
    (∀ ms, parseJSON "not json" = some (.obj ms) → maxNestingDepth < (JSON.obj ms).depth) ∧
    unmarshalHeaders "not json" = [] ∧
    main envNoContent ["http_client", "GET", "http://h/", "not json"] =
      main envNoContent ["http_client", "GET", "http://h/", "\x7b\x7d"] ∧
    parseJSON "\x7b\"a\":\"b\",\"c\":1\x7d" = some (.obj [("a", .str "b"), ("c", .num "1")]) ∧
    (JSON.obj [("a", .str "b"), ("c", .num "1")]).depth ≤ maxNestingDepth ∧
    mapGet (unmarshalHeaders "\x7b\"a\":\"b\",\"c\":1\x7d") "c" = some "" :=
  have hn : ∀ ms, parseJSON "not json" = some (.obj ms) →
      maxNestingDepth < (JSON.obj ms).depth := fun _ h =>
    Option.noConfusion ((show parseJSON "not json" = none from rfl).symm.trans h)
  have h1 := (undecodable_headers_empty envNoContent "http_client" "GET" "http://h/"
    "not json" []).1 hn
  ⟨hn, h1.1, h1.2, rfl, by decide,
    (undecodable_headers_empty envNoContent "http_client" "GET" "http://h/"
      "\x7b\"a\":\"b\",\"c\":1\x7d" []).2 _ rfl (by decide) "c"⟩

/-- C7 fails at the header argument `{"a":"1","A":"2"}`: the two keys are
distinct in the mapping and name the same header `A`.  When `range` visits `a`
first the request carries `A` with `2` (the pair of `a` and `1` is
overwritten); when it visits `A` first the request carries `A` with `1`: the
request depends on the order of the iteration. -/
theorem colliding_header_names :
    unmarshalHeaders "\x7b\"a\":\"1\",\"A\":\"2\"\x7d" = [("a", "1"), ("A", "2")] ∧
    (main envNoContent ["http_client", "GET", "http://h/", "\x7b\"a\":\"1\",\"A\":\"2\"\x7d"]).trace =
      [.newRequest "GET" "http://h/" "", .send ⟨"GET", "http://h/", "", [("A", ["2"])]⟩,
        .readAll] ∧
    (main envReversed ["http_client", "GET", "http://h/", "\x7b\"a\":\"1\",\"A\":\"2\"\x7d"]).trace =
      [.newRequest "GET" "http://h/" "", .send ⟨"GET", "http://h/", "", [("A", ["1"])]⟩,
        .readAll] ∧
    (main envNoContent ["http_client", "GET", "http://h/", "\x7b\"a\":\"1\",\"A\":\"2\"\x7d"]).trace ≠
      (main envReversed ["http_client", "GET", "http://h/",
        "\x7b\"a\":\"1\",\"A\":\"2\"\x7d"]).trace :=
  ⟨by decide, by rfl, by rfl, by decide⟩

/-- C7, amended: when no two keys of the decoded mapping have the same
canonical header name (and `range` visits every entry once), every pair
`(k, v)` of the mapping is in the request as the header
`CanonicalMIMEHeaderKey k` with the single value `v`, the request has no other
header, the headers are the same for every order of iteration, and this
request is the one sent. -/
theorem distinct_headers_sent (env : Env) (prog a1 a2 text : String) (rest : List String)
    (hperm : (env.rangeOrder (unmarshalHeaders text)).Perm (unmarshalHeaders text))
    (hdist : ((unmarshalHeaders text).map (fun kv => CanonicalMIMEHeaderKey kv.1)).Nodup) :
    (∀ k v, (k, v) ∈ unmarshalHeaders text →
      mapGet (requestFor env (ToUpper env.upper a1) a2 text (rest.getD 0 "")).header
        (CanonicalMIMEHeaderKey k) = some [v]) ∧
    (∀ name, name ∉ (unmarshalHeaders text).map (fun kv => CanonicalMIMEHeaderKey kv.1) →
      mapGet (requestFor env (ToUpper env.upper a1) a2 text (rest.getD 0 "")).header name = none) ∧
    (∀ env' : Env, (env'.rangeOrder (unmarshalHeaders text)).Perm (unmarshalHeaders text) →
      ∀ name, mapGet (requestFor env' (ToUpper env.upper a1) a2 text (rest.getD 0 "")).header name =
        mapGet (requestFor env (ToUpper env.upper a1) a2 text (rest.getD 0 "")).header name) ∧
    (env.newRequest (ToUpper env.upper a1) a2 = none →
      Event.send (requestFor env (ToUpper env.upper a1) a2 text (rest.getD 0 "")) ∈
        (main env (prog :: a1 :: a2 :: text :: rest)).trace) := by
  have key : ∀ env' : Env, (env'.rangeOrder (unmarshalHeaders text)).Perm (unmarshalHeaders text) →
      (∀ k v, (k, v) ∈ unmarshalHeaders text →
        mapGet (requestFor env' (ToUpper env.upper a1) a2 text (rest.getD 0 "")).header
          (CanonicalMIMEHeaderKey k) = some [v]) ∧
      (∀ name, name ∉ (unmarshalHeaders text).map (fun kv => CanonicalMIMEHeaderKey kv.1) →
        mapGet (requestFor env' (ToUpper env.upper a1) a2 text (rest.getD 0 "")).header name = none) := by
    intro env' hp
    have hd : ((env'.rangeOrder (unmarshalHeaders text)).map
        (fun kv => CanonicalMIMEHeaderKey kv.1)).Nodup :=
      ((hp.map _).nodup_iff).mpr hdist
    constructor
    · intro k v hkv
      exact mapGet_setHeaders_of_mem _ _ hd k v (hp.mem_iff.mpr hkv)
    · intro name hname
      have : name ∉ (env'.rangeOrder (unmarshalHeaders text)).map
          (fun kv => CanonicalMIMEHeaderKey kv.1) := fun hm =>
        hname (((hp.map _).mem_iff).mp hm)
      unfold requestFor
      rw [mapGet_setHeaders_of_not_mem _ _ _ this]
      rfl
  refine ⟨(key env hperm).1, (key env hperm).2, ?_, ?_⟩
  · intro env' hp name
    by_cases hname : name ∈ (unmarshalHeaders text).map (fun kv => CanonicalMIMEHeaderKey kv.1)
    · obtain ⟨⟨k, v⟩, hkv, rfl⟩ := List.mem_map.mp hname
      rw [(key env' hp).1 k v hkv, (key env hperm).1 k v hkv]
    · rw [(key env' hp).2 name hname, (key env hperm).2 name hname]
  · intro hn
    cases hr : env.roundTrip (requestFor env (ToUpper env.upper a1) a2
        ((text :: rest).getD 0 "\x7b\x7d") ((text :: rest).getD 1 "")) with
    | error err =>
      rw [main_failed env prog a1 a2 (text :: rest) err hn hr]
      simp
    | ok resp =>
      rw [main_answered env prog a1 a2 (text :: rest) resp hn hr]
      simp

/-- C7, amended, at the header argument `{"accept":"*/*","x-id":"7"}` with the
mapping visited in reverse: the entry `x-id` is sent as `X-Id` with `7`. -/
theorem distinct_headers_sent_witness :
    (envReversed.rangeOrder (unmarshalHeaders "\x7b\"accept\":\"*/*\",\"x-id\":\"7\"\x7d")).Perm
      (unmarshalHeaders "\x7b\"accept\":\"*/*\",\"x-id\":\"7\"\x7d") ∧
    ((unmarshalHeaders "\x7b\"accept\":\"*/*\",\"x-id\":\"7\"\x7d").map
      (fun kv => CanonicalMIMEHeaderKey kv.1)).Nodup ∧
    mapGet (requestFor envReversed (ToUpper envReversed.upper "get") "http://h/"
      "\x7b\"accept\":\"*/*\",\"x-id\":\"7\"\x7d" "").header "X-Id" = some ["7"] :=
  have hp : (envReversed.rangeOrder
      (unmarshalHeaders "\x7b\"accept\":\"*/*\",\"x-id\":\"7\"\x7d")).Perm
      (unmarshalHeaders "\x7b\"accept\":\"*/*\",\"x-id\":\"7\"\x7d") := List.reverse_perm _
  have hd : ((unmarshalHeaders "\x7b\"accept\":\"*/*\",\"x-id\":\"7\"\x7d").map
      (fun kv => CanonicalMIMEHeaderKey kv.1)).Nodup := by decide
  ⟨hp, hd, (distinct_headers_sent envReversed "http_client" "get" "http://h/"
    "\x7b\"accept\":\"*/*\",\"x-id\":\"7\"\x7d" [] hp hd).1 "x-id" "7" (by decide)⟩

/-- C9: with at least two user arguments, `http.NewRequest` receives the
second argument unchanged as the URL and the fourth argument verbatim as the
body (the empty string when there is none); the request sent is the one built
from the third argument as the header text (`{}`, which decodes to the empty
mapping, when there is none); the run
is the run with the optional arguments spelled out, so that omitting them is
passing `{}` and the empty string, and arguments after the fourth change
neither the request nor the output. -/
theorem request_descriptor (env : Env) (prog a1 a2 : String) (opt : List String) :
    (main env (prog :: a1 :: a2 :: opt)).trace.head? =
      some (.newRequest (ToUpper env.upper a1) a2 (opt.getD 1 "")) ∧
    (∀ req, Event.send req ∈ (main env (prog :: a1 :: a2 :: opt)).trace →
      req = requestFor env (ToUpper env.upper a1) a2 (opt.getD 0 "\x7b\x7d") (opt.getD 1 "")) ∧
    main env (prog :: a1 :: a2 :: opt) =
      main env [prog, a1, a2, opt.getD 0 "\x7b\x7d", opt.getD 1 ""] ∧
    main env [prog, a1, a2] = main env [prog, a1, a2, "\x7b\x7d", ""] ∧
    (∀ h, main env [prog, a1, a2, h] = main env [prog, a1, a2, h, ""]) ∧
    (∀ h b extra, main env (prog :: a1 :: a2 :: h :: b :: extra) = main env [prog, a1, a2, h, b]) ∧
    unmarshalHeaders "\x7b\x7d" = [] := by
  refine ⟨?_, ?_, ?_, ?_, ?_, ?_, by decide⟩
  · cases hn : env.newRequest (ToUpper env.upper a1) a2 with
    | some err => rw [main_refused env prog a1 a2 opt err hn]; rfl
    | none =>
      cases hr : env.roundTrip
          (requestFor env (ToUpper env.upper a1) a2 (opt.getD 0 "\x7b\x7d") (opt.getD 1 "")) with
      | error err => rw [main_failed env prog a1 a2 opt err hn hr]; rfl
      | ok resp => rw [main_answered env prog a1 a2 opt resp hn hr]; rfl
  · intro req he
    cases hn : env.newRequest (ToUpper env.upper a1) a2 with
    | some err =>
      rw [main_refused env prog a1 a2 opt err hn] at he
      simp at he
    | none =>
      cases hr : env.roundTrip
          (requestFor env (ToUpper env.upper a1) a2 (opt.getD 0 "\x7b\x7d") (opt.getD 1 "")) with
      | error err =>
        rw [main_failed env prog a1 a2 opt err hn hr] at he
        simpa using he
      | ok resp =>
        rw [main_answered env prog a1 a2 opt resp hn hr] at he
        simpa using he
  · rw [main_args, main_args]; rfl
  · rw [main_args, main_args]; rfl
  · intro h; rw [main_args, main_args]; rfl
  · intro h b extra; rw [main_args, main_args]; rfl

/-- C9 at a POST with a header text, a body and one argument too many. -/
theorem request_descriptor_witness :
    (main envNoContent ["http_client", "post", "http://h/", "\x7b\"a\":\"b\"\x7d", "x=1", "extra"]).trace =
      [.newRequest "POST" "http://h/" "x=1",
        .send ⟨"POST", "http://h/", "x=1", [("A", ["b"])]⟩, .readAll] ∧
    main envNoContent ["http_client", "post", "http://h/", "\x7b\"a\":\"b\"\x7d", "x=1", "extra"] =
      main envNoContent ["http_client", "post", "http://h/", "\x7b\"a\":\"b\"\x7d", "x=1"] :=
  ⟨by rfl, (request_descriptor envNoContent "http_client" "post" "http://h/" []).2.2.2.2.2.1
    "\x7b\"a\":\"b\"\x7d" "x=1" ["extra"]⟩

/-- C10, at a method that is no token: `http.NewRequest` rejects `G T` with the
message `net/http: invalid method "G T"`, the transport is not called, and the
one text printed is the format with the message pasted unescaped.  The text is
not well-formed JSON, so it has neither an `error` member nor a `status`
member. -/
theorem invalid_method_no_member :
    (main envBadMethod ["http_client", "g t", "http://h/"]).stdout =
      ["\x7b\"error\": \"net/http: invalid method \"G T\"\"\x7d"] ∧
    sends (main envBadMethod ["http_client", "g t", "http://h/"]).trace = 0 ∧
    parseJSON "\x7b\"error\": \"net/http: invalid method \"G T\"\"\x7d" = none ∧
    (parseJSON "\x7b\"error\": \"net/http: invalid method \"G T\"\"\x7d").bind
      (JSON.member "error") = none ∧
    (parseJSON "\x7b\"error\": \"net/http: invalid method \"G T\"\"\x7d").bind
      (JSON.member "status") = none :=
  ⟨by decide, by decide, by rfl, by rfl, by rfl⟩

end HttpClient
